import Mathlib

/-!
# FFDM perfect-hash generator (`hfg.c`): embedding and verification

The C program reads a file of integer keys and a parameter `t`, maps each key
`K` to the cell `A[K / t][K % t]`, sorts the rows of `A` by fullness and shifts
every non-empty row right until it fits into the table `C` without collision.

Embedding conventions.
* C `int` values are `Int`; every quantity the program computes from inputs
  with `1 ≤ t ≤ t_Max` stays far inside the 32-bit range (indices are below
  `HashTable_Max`, counters are bounded by the number of keys read).
* The global arrays are total maps from `Int` indices.  Every array access of
  the source is guarded in the model by the bounds of the C array; an access
  outside the bounds (and a division by zero) is undefined behaviour and stops
  the model with the `undefined` outcome (`none` for the helper loops).
* Loops are recursive functions over a counter whose fuel is the exact number
  of iterations the C loop can make, so running out of fuel coincides with
  the loop condition turning false.
* The key file is the list of integers `fscanf` delivers (`none` when the file
  cannot be opened).  Argument parsing and printing are left out.
* `ReadKeyData` is a function of its own and can be called with a `t` that
  `main` would refuse.  Its return code and key count are computed from locals
  alone; `ReadKeyData.control` gives them for every `t`, and agrees with the
  guarded loop wherever that one returns.
-/

namespace Hfg

/-! ## Constants (lines 22-31) -/

def Success : Int := 0
def t_value_ERROR : Int := -1
def fopen_ERROR : Int := -2
def key_value_ERROR : Int := -3

def t_Max : Int := 100
def HashTable_Max : Int := 1000
def InvalidKey : Int := -1

/-! ## Global data (lines 33-47) -/

structure RowStruct where
  RowNumber : Int
  RowItemCnt : Int
  deriving DecidableEq

/-- The global arrays `A[t_Max][t_Max]`, `r[t_Max]`, `C[HashTable_Max]` and
`Row[t_Max]`. -/
structure Globals where
  A : Int → Int → Int
  r : Int → Int
  C : Int → Int
  Row : Int → RowStruct

/-- Objects with static storage duration start zero-initialised. -/
def zeroGlobals : Globals :=
  { A := fun _ _ => 0, r := fun _ => 0, C := fun _ => 0, Row := fun _ => ⟨0, 0⟩ }

/-- Index `i` lies inside a C array of length `n`. -/
def inBounds (i n : Int) : Prop := 0 ≤ i ∧ i < n

instance (i n : Int) : Decidable (inBounds i n) := by
  unfold inBounds; infer_instance

/-- Store into a one-dimensional array: `a[i] = v`. -/
def store {α : Type} (a : Int → α) (i : Int) (v : α) : Int → α :=
  fun p => if p = i then v else a p

/-- Store into the matrix: `A[i][j] = v`. -/
def store2 (a : Int → Int → Int) (i j : Int) (v : Int) : Int → Int → Int :=
  fun p q => if p = i ∧ q = j then v else a p q

/-! ## `InitArrays` (lines 61-79) -/

/-- Every cell of `r`, `Row`, `A` and `C` inside the array bounds is reset. -/
def InitArrays (g : Globals) : Globals :=
  { A := fun row column =>
      if inBounds row t_Max ∧ inBounds column t_Max then InvalidKey else g.A row column
    r := fun row => if inBounds row t_Max then -1 else g.r row
    C := fun row => if inBounds row HashTable_Max then InvalidKey else g.C row
    Row := fun row => if inBounds row t_Max then ⟨row, 0⟩ else g.Row row }

/-! ## `ReadKeyData` (lines 99-119) -/

/-- What `ReadKeyData` hands back: the return code (`none` when the loop ran
into undefined behaviour), `*KeyCount`, and the globals. -/
structure ReadResult where
  rc : Option Int
  KeyCount : Int
  g : Globals

/-- The `while (fscanf(...) == 1)` loop, lines 109-118, over the integers the
file delivers. -/
def ReadKeyData.loop (t : Int) : List Int → Int → Globals → ReadResult
  | [], KeyCount, g => ⟨some Success, KeyCount, g⟩
  | key :: rest, KeyCount, g =>
    if t = 0 then ⟨none, KeyCount, g⟩
    else
      let row := Int.tdiv key t
      let column := Int.tmod key t
      if row ≥ t then ⟨some key_value_ERROR, KeyCount, g⟩
      else if inBounds row t_Max ∧ inBounds column t_Max then
        ReadKeyData.loop t rest (KeyCount + 1)
          { g with
            A := store2 g.A row column key
            Row := store g.Row row ⟨(g.Row row).RowNumber, (g.Row row).RowItemCnt + 1⟩ }
      else ⟨none, KeyCount, g⟩

def ReadKeyData (file : Option (List Int)) (t : Int) (g : Globals) : ReadResult :=
  match file with
  | none => ⟨some fopen_ERROR, 0, g⟩
  | some keys => ReadKeyData.loop t keys 0 g

/-- The control path of the same loop, lines 109-118: the return code and
`*KeyCount`.  The two tests of the loop, `fscanf(...) == 1` and `row >= t`,
read the locals `key`, `row` and `t` only, so which `return` is reached, and
after how many passes, does not depend on the stores into `A` and `Row`; this
is the loop with lines 114 and 115 left out. -/
def ReadKeyData.control (t : Int) : List Int → Int → Option Int × Int
  | [], KeyCount => (some Success, KeyCount)
  | key :: rest, KeyCount =>
    if t = 0 then (none, KeyCount)
    else
      let row := Int.tdiv key t
      if row ≥ t then (some key_value_ERROR, KeyCount)
      else ReadKeyData.control t rest (KeyCount + 1)

/-! ## `SortRows` (lines 134-150) -/

/-- The inner loop `for (j = i+1; j < t; j++)`, lines 140-148. -/
def SortRows.inner (t i : Int) : Nat → Int → (Int → RowStruct) → Option (Int → RowStruct)
  | 0, _, Row => some Row
  | fuel + 1, j, Row =>
    if j < t then
      if inBounds i t_Max ∧ inBounds j t_Max then
        if (Row i).RowItemCnt < (Row j).RowItemCnt then
          SortRows.inner t i fuel (j + 1) (store (store Row i (Row j)) j (Row i))
        else SortRows.inner t i fuel (j + 1) Row
      else none
    else some Row

/-- The outer loop `for (i = 0; i < t-1; i++)`, lines 138-149. -/
def SortRows.outer (t : Int) : Nat → Int → (Int → RowStruct) → Option (Int → RowStruct)
  | 0, _, Row => some Row
  | fuel + 1, i, Row =>
    if i < t - 1 then
      match SortRows.inner t i (t - (i + 1)).toNat (i + 1) Row with
      | none => none
      | some Row1 => SortRows.outer t fuel (i + 1) Row1
    else some Row

def SortRows (t : Int) (g : Globals) : Option Globals :=
  match SortRows.outer t (t - 1).toNat 0 g.Row with
  | none => none
  | some Row1 => some { g with Row := Row1 }

/-! ## The packer (`main`, lines 194-223) -/

/-- The collision scan `for (k = 0; k < t; k++) if (...) break;`, lines
199-203; the result is the value of `k` when the loop is left.  `&&` reads
`A[row][k]` only when `C[offset+k]` is occupied. -/
def scanCols (t : Int) (g : Globals) (row offset : Int) : Nat → Int → Option Int
  | 0, k => some k
  | fuel + 1, k =>
    if k < t then
      if inBounds (offset + k) HashTable_Max then
        if g.C (offset + k) ≠ InvalidKey then
          if inBounds row t_Max ∧ inBounds k t_Max then
            if g.A row k ≠ InvalidKey then some k
            else scanCols t g row offset fuel (k + 1)
          else none
        else scanCols t g row offset fuel (k + 1)
      else none
    else some k

/-- The insertion loop, lines 207-213. -/
def insertRow (t : Int) (row offset : Int) : Nat → Int → Globals → Option Globals
  | 0, _, g => some g
  | fuel + 1, k, g =>
    if k < t then
      if inBounds row t_Max ∧ inBounds k t_Max then
        if g.A row k ≠ InvalidKey then
          if inBounds (offset + k) HashTable_Max then
            insertRow t row offset fuel (k + 1) { g with C := store g.C (offset + k) (g.A row k) }
          else none
        else insertRow t row offset fuel (k + 1) g
      else none
    else some g

/-- The offset loop `for (offset = 0; offset < HashTable_Max-t-1; offset++)`,
lines 197-216; the result is the value of `offset` when the loop is left
together with the globals. -/
def tryOffsets (t : Int) (row : Int) : Nat → Int → Globals → Option (Int × Globals)
  | 0, offset, g => some (offset, g)
  | fuel + 1, offset, g =>
    if offset < HashTable_Max - t - 1 then
      match scanCols t g row offset t.toNat 0 with
      | none => none
      | some k =>
        if k = t then
          if inBounds row t_Max then
            match insertRow t row offset t.toNat 0 { g with r := store g.r row offset } with
            | none => none
            | some g1 => some (offset, g1)
          else none
        else tryOffsets t row fuel (offset + 1) g
    else some (offset, g)

/-- Lines 196-222 for one row: run the offset loop from `offset = 0`. -/
def placeRow (t : Int) (row : Int) (g : Globals) : Option (Int × Globals) :=
  tryOffsets t row (HashTable_Max - t - 1).toNat 0 g

/-- How the row loop of the packer ends. -/
inductive PackResult where
  /-- `Row[ndx].RowItemCnt > 0` turned false; `offset` is what the local
  variable holds (`none`: never assigned). -/
  | completed (offset : Option Int) (g : Globals)
  /-- "failed to fit row %d into the hash table", `exit(-1)`. -/
  | failed (row : Int) (g : Globals)
  /-- An array was accessed outside its bounds. -/
  | undefined (g : Globals)

/-- The row loop `for (ndx = 0; Row[ndx].RowItemCnt > 0; ndx++)`, lines
194-223. -/
def packRows (t : Int) : Nat → Int → Option Int → Globals → PackResult
  | 0, _, _, g => .undefined g
  | fuel + 1, ndx, offset, g =>
    if inBounds ndx t_Max then
      if (g.Row ndx).RowItemCnt > 0 then
        match placeRow t (g.Row ndx).RowNumber g with
        | none => .undefined g
        | some (offset1, g1) =>
          if offset1 = HashTable_Max - t - 1 then .failed (g.Row ndx).RowNumber g1
          else packRows t fuel (ndx + 1) (some offset1) g1
      else .completed offset g
    else .undefined g

/-! ## Locating the right-most entry (lines 225-228) -/

/-- The loop `for (k = 0; k < HashTable_Max; k++) if (C[k] != InvalidKey) offset = k+1;`,
lines 225-228; the result is the final value of `offset`. -/
def lastEntry (C : Int → Int) : Nat → Int → Option Int → Option Int
  | 0, _, offset => offset
  | fuel + 1, k, offset =>
    if k < HashTable_Max then
      lastEntry C fuel (k + 1) (if C k ≠ InvalidKey then some (k + 1) else offset)
    else offset

/-! ## `main` (lines 151-249) -/

/-- How a run of the program stops. -/
inductive Status where
  /-- "t may not exceed %d", `exit(t_value_ERROR)`. -/
  | t_value_exit
  /-- "ReadKeyData() failed with error %d", `exit(rc)`. -/
  | read_exit (rc : Int)
  /-- "failed to fit row %d into the hash table", `exit(-1)`. -/
  | fit_exit (row : Int)
  /-- The results were printed. -/
  | finished
  /-- Undefined behaviour: out-of-bounds array access or division by zero. -/
  | undefined
  deriving DecidableEq

/-- The machine state when the program stops: how it stopped, the locals
`NumKeys` and `offset` (`none`: never assigned) and the global arrays.  For a
`finished` run `NumKeys` is the printed "Number of keys" and `offset` the
printed "Hash table size". -/
structure Run where
  status : Status
  NumKeys : Option Int
  offset : Option Int
  g : Globals

/-- The program from line 165 on: `t` is `atoi(argv[2])`, `file` the integers
of the key file. -/
def main (t : Int) (file : Option (List Int)) : Run :=
  if t > t_Max then ⟨.t_value_exit, none, none, zeroGlobals⟩
  else
    let rd := ReadKeyData file t (InitArrays zeroGlobals)
    match rd.rc with
    | none => ⟨.undefined, some rd.KeyCount, none, rd.g⟩
    | some rc =>
      if rc ≠ 0 then ⟨.read_exit rc, some rd.KeyCount, none, rd.g⟩
      else
        match SortRows t rd.g with
        | none => ⟨.undefined, some rd.KeyCount, none, rd.g⟩
        | some g1 =>
          match packRows t (t_Max + 1).toNat 0 none g1 with
          | .undefined g2 => ⟨.undefined, some rd.KeyCount, none, g2⟩
          | .failed row g2 => ⟨.fit_exit row, some rd.KeyCount, none, g2⟩
          | .completed offset g2 =>
            ⟨.finished, some rd.KeyCount, lastEntry g2.C HashTable_Max.toNat 0 offset, g2⟩

/-! ## Specification-level descriptions used by the proofs -/

/-- The keys the ingestion loop gets through before it stops: the longest
prefix of the file whose rows are all below `t`. -/
def accepted (t : Int) (keys : List Int) : List Int :=
  keys.takeWhile (fun k => decide (k / t < t))

/-- The matrix after the keys `keys` were stored into `A0`. -/
def ingA (t : Int) (keys : List Int) (A0 : Int → Int → Int) : Int → Int → Int :=
  fun i j => if ∃ k ∈ keys, k / t = i ∧ k % t = j then t * i + j else A0 i j

/-- The row descriptors after the keys `keys` were counted into `R0`. -/
def ingRow (t : Int) (keys : List Int) (R0 : Int → RowStruct) : Int → RowStruct :=
  fun i => ⟨(R0 i).RowNumber, (R0 i).RowItemCnt + keys.countP (fun k => decide (k / t = i))⟩

/-- Offset `o` collides for row `row`: some column `k < t` has both the table
cell `C[o+k]` and the matrix cell `A[row][k]` occupied. -/
def collides (t : Int) (g : Globals) (row o : Int) : Prop :=
  ∃ k, 0 ≤ k ∧ k < t ∧ g.C (o + k) ≠ InvalidKey ∧ g.A row k ≠ InvalidKey

/-- The globals after row `row` was committed at offset `o`: `r[row] = o` and
every occupied cell of the row copied to `C[o + k]`. -/
def commit (t : Int) (g : Globals) (row o : Int) : Globals :=
  { g with
    r := store g.r row o
    C := fun c =>
      if 0 ≤ c - o ∧ c - o < t ∧ g.A row (c - o) ≠ InvalidKey then g.A row (c - o)
      else g.C c }

/-- The state of the packer when the rows at positions `0 .. ndx-1` of the
sorted descriptor array of `g0` have been placed, `g0` being the globals when
the packer starts. -/
structure PackInv (t : Int) (g0 : Globals) (ndx : Int) (g : Globals) : Prop where
  sameA : g.A = g0.A
  sameRow : g.Row = g0.Row
  placed : ∀ p, 0 ≤ p → p < ndx →
    0 ≤ g.r (g0.Row p).RowNumber ∧ g.r (g0.Row p).RowNumber < HashTable_Max - t - 1 ∧
    ∀ k, 0 ≤ k → k < t → g0.A (g0.Row p).RowNumber k ≠ InvalidKey →
      g.C (g.r (g0.Row p).RowNumber + k) = g0.A (g0.Row p).RowNumber k
  untouched : ∀ ρ, (∀ p, 0 ≤ p → p < ndx → (g0.Row p).RowNumber ≠ ρ) → g.r ρ = g0.r ρ
  written : ∀ c, g.C c ≠ g0.C c →
    ∃ p, 0 ≤ p ∧ p < ndx ∧ ∃ k, 0 ≤ k ∧ k < t ∧
      g0.A (g0.Row p).RowNumber k ≠ InvalidKey ∧ c = g.r (g0.Row p).RowNumber + k

/-- The globals when the packer starts on the key list `keys`: the matrix and
the counts of the ingestion, the descriptors rearranged by `σ`. -/
def packStart (t : Int) (keys : List Int) (σ : Equiv.Perm Int) : Globals :=
  { InitArrays zeroGlobals with
    A := ingA t keys (InitArrays zeroGlobals).A
    Row := fun p => ingRow t keys (InitArrays zeroGlobals).Row (σ p) }

/-- What `main` does after a successful `SortRows`, as a function of the
globals the packer starts from. -/
def packAndReport (t : Int) (NumKeys : Int) (g1 : Globals) : Run :=
  match packRows t (t_Max + 1).toNat 0 none g1 with
  | .undefined g2 => ⟨.undefined, some NumKeys, none, g2⟩
  | .failed row g2 => ⟨.fit_exit row, some NumKeys, none, g2⟩
  | .completed offset g2 =>
    ⟨.finished, some NumKeys, lastEntry g2.C HashTable_Max.toNat 0 offset, g2⟩

/-- The rows at the sorted positions `0 .. ndx-1` sit at their first fit: every
smaller offset of such a row runs one of its occupied columns into a cell
that belongs to a row placed at an earlier position. -/
def FirstFit (t : Int) (g0 : Globals) (ndx : Int) (g : Globals) : Prop :=
  ∀ p, 0 ≤ p → p < ndx → ∀ o, 0 ≤ o → o < g.r (g0.Row p).RowNumber →
    ∃ k, 0 ≤ k ∧ k < t ∧ g0.A (g0.Row p).RowNumber k ≠ InvalidKey ∧
      ∃ q, 0 ≤ q ∧ q < p ∧ ∃ k2, 0 ≤ k2 ∧ k2 < t ∧
        g0.A (g0.Row q).RowNumber k2 ≠ InvalidKey ∧
        g.r (g0.Row q).RowNumber + k2 = o + k

/-- The indices `0, 1, .., n-1` of a C array of length `n`. -/
def upTo (n : Int) : List Int :=
  (List.range n.toNat).map Int.ofNat

/-- The number of columns `j < t` with `A[i][j]` occupied. -/
def filledInRow (t : Int) (A : Int → Int → Int) (i : Int) : Nat :=
  (upTo t).countP (fun j => decide (A i j ≠ InvalidKey))

/-- The number of occupied cells in the rows and columns `0 .. t-1` of `A`. -/
def filledCells (t : Int) (A : Int → Int → Int) : Nat :=
  ((upTo t).map (fun i => filledInRow t A i)).sum

/-- The number of occupied cells of the table `C`. -/
def occupiedCells (C : Int → Int) : Nat :=
  (upTo HashTable_Max).countP (fun c => decide (C c ≠ InvalidKey))

/-- The globals the row loop of the packer stops with. -/
def PackResult.globals : PackResult → Globals
  | .completed _ g => g
  | .failed _ g => g
  | .undefined g => g

/-! ## Ingestion -/

theorem ingA_nil (t : Int) (A0 : Int → Int → Int) : ingA t [] A0 = A0 := by
  funext i j
  simp [ingA]

theorem ingRow_nil (t : Int) (R0 : Int → RowStruct) : ingRow t [] R0 = R0 := by
  funext i
  simp [ingRow]

theorem ingA_cons (t key : Int) (keys : List Int) (A0 : Int → Int → Int) :
    ingA t keys (store2 A0 (key / t) (key % t) key) = ingA t (key :: keys) A0 := by
  funext i j
  simp only [ingA, store2, List.mem_cons, exists_eq_or_imp]
  by_cases h1 : ∃ k ∈ keys, k / t = i ∧ k % t = j
  · simp [h1]
  · by_cases h2 : key / t = i ∧ key % t = j
    · obtain ⟨ha, hb⟩ := h2
      have := Int.ediv_add_emod key t
      subst ha hb
      simp [h1, this]
    · have h3 : ¬ (i = key / t ∧ j = key % t) := fun h => h2 ⟨h.1.symm, h.2.symm⟩
      simp [h1, h2, h3]

theorem ingRow_cons (t key : Int) (keys : List Int) (R0 : Int → RowStruct) :
    ingRow t keys (store R0 (key / t)
        ⟨(R0 (key / t)).RowNumber, (R0 (key / t)).RowItemCnt + 1⟩)
      = ingRow t (key :: keys) R0 := by
  funext i
  simp only [ingRow, store, List.countP_cons]
  by_cases h : i = key / t
  · subst h
    simp
    omega
  · have h2 : ¬ key / t = i := fun e => h e.symm
    simp [h, h2]

theorem key_cell_inBounds {t key : Int} (ht1 : 1 ≤ t) (ht : t ≤ t_Max) (h0 : 0 ≤ key)
    (hr : key / t < t) : inBounds (key / t) t_Max ∧ inBounds (key % t) t_Max := by
  have h1 : 0 ≤ key / t := Int.ediv_nonneg h0 (by omega)
  have h2 : 0 ≤ key % t := Int.emod_nonneg key (by omega)
  have h3 : key % t < t := Int.emod_lt_of_pos key (by omega)
  simp only [inBounds]
  omega

/-- Closed form of the ingestion loop on non-negative keys. -/
theorem loop_eq (t : Int) (ht1 : 1 ≤ t) (ht : t ≤ t_Max) :
    ∀ (keys : List Int) (n : Int) (g : Globals), (∀ k ∈ keys, 0 ≤ k) →
      ReadKeyData.loop t keys n g =
        ⟨if ∀ k ∈ keys, k / t < t then some Success else some key_value_ERROR,
         n + (accepted t keys).length,
         { g with A := ingA t (accepted t keys) g.A
                  Row := ingRow t (accepted t keys) g.Row }⟩ := by
  intro keys
  induction keys with
  | nil =>
    intro n g _
    simp [ReadKeyData.loop, accepted, ingA_nil, ingRow_nil]
  | cons key rest ih =>
    intro n g hk
    have h0 : 0 ≤ key := hk key (List.mem_cons_self _ _)
    have hrest : ∀ k ∈ rest, 0 ≤ k := fun k hm => hk k (List.mem_cons_of_mem _ hm)
    have hd : Int.tdiv key t = key / t := Int.tdiv_eq_ediv h0 (by omega)
    have hm : Int.tmod key t = key % t := Int.tmod_eq_emod h0 (by omega)
    have htz : t ≠ 0 := by omega
    by_cases h : key / t < t
    · have hb := key_cell_inBounds ht1 ht h0 h
      have hacc : accepted t (key :: rest) = key :: accepted t rest := by
        simp [accepted, List.takeWhile_cons, h]
      have hnot : ¬ (key / t ≥ t) := by omega
      rw [ReadKeyData.loop]
      simp only [htz, if_false, hd, hm, hnot, hb, and_self, if_true]
      rw [ih (n + 1) _ hrest, hacc]
      simp only [List.forall_mem_cons, h, true_and, List.length_cons, ingA_cons, ingRow_cons]
      congr 1
      push_cast
      omega
    · have hacc : accepted t (key :: rest) = [] := by
        simp [accepted, List.takeWhile_cons, h]
      have hge : key / t ≥ t := by omega
      rw [ReadKeyData.loop]
      simp only [htz, if_false, hd, hge, if_true, hacc]
      simp [h, ingA_nil, ingRow_nil]

/-- The same closed form for every `t ≥ 1`, whenever the loop returns at all
(for `t > t_Max` a key may fall outside `A`). -/
theorem loop_gen (t : Int) (ht1 : 1 ≤ t) :
    ∀ (keys : List Int) (n : Int) (g : Globals), (∀ k ∈ keys, 0 ≤ k) →
      (ReadKeyData.loop t keys n g).rc ≠ none →
      ReadKeyData.loop t keys n g =
        ⟨if ∀ k ∈ keys, k / t < t then some Success else some key_value_ERROR,
         n + (accepted t keys).length,
         { g with A := ingA t (accepted t keys) g.A
                  Row := ingRow t (accepted t keys) g.Row }⟩ := by
  intro keys
  induction keys with
  | nil =>
    intro n g _ _
    simp [ReadKeyData.loop, accepted, ingA_nil, ingRow_nil]
  | cons key rest ih =>
    intro n g hk hrc
    have h0 : 0 ≤ key := hk key (List.mem_cons_self _ _)
    have hrest : ∀ k ∈ rest, 0 ≤ k := fun k hm => hk k (List.mem_cons_of_mem _ hm)
    have hd : Int.tdiv key t = key / t := Int.tdiv_eq_ediv h0 (by omega)
    have hm : Int.tmod key t = key % t := Int.tmod_eq_emod h0 (by omega)
    have htz : t ≠ 0 := by omega
    by_cases h : key / t < t
    · have hacc : accepted t (key :: rest) = key :: accepted t rest := by
        simp [accepted, List.takeWhile_cons, h]
      have hnot : ¬ (key / t ≥ t) := by omega
      by_cases hb : inBounds (key / t) t_Max ∧ inBounds (key % t) t_Max
      · rw [ReadKeyData.loop] at hrc ⊢
        simp only [htz, if_false, hd, hm, hnot, hb, and_self, if_true] at hrc ⊢
        rw [ih (n + 1) _ hrest hrc, hacc]
        simp only [List.forall_mem_cons, h, true_and, List.length_cons, ingA_cons,
          ingRow_cons]
        congr 1
        push_cast
        omega
      · exfalso
        apply hrc
        rw [ReadKeyData.loop]
        simp only [htz, if_false, hd, hm, hnot, hb]
    · have hacc : accepted t (key :: rest) = [] := by
        simp [accepted, List.takeWhile_cons, h]
      have hge : key / t ≥ t := by omega
      rw [ReadKeyData.loop]
      simp only [htz, if_false, hd, hge, if_true, hacc]
      simp [h, ingA_nil, ingRow_nil]

/-- Inside the bounds of `A`, the matrix built from `InitArrays` holds exactly
the stored keys. -/
theorem ingA_init_occupied (t : Int) (keys : List Int) (g : Globals) (i j : Int)
    (hi : inBounds i t_Max) (hj : inBounds j t_Max)
    (h : ingA t keys (InitArrays g).A i j ≠ InvalidKey) :
    ingA t keys (InitArrays g).A i j ∈ keys ∧
      ingA t keys (InitArrays g).A i j / t = i ∧ ingA t keys (InitArrays g).A i j % t = j := by
  simp only [ingA] at h ⊢
  by_cases hex : ∃ k ∈ keys, k / t = i ∧ k % t = j
  · rw [if_pos hex]
    obtain ⟨k, hk1, hk2, hk3⟩ := hex
    have := Int.ediv_add_emod k t
    rw [hk2, hk3] at this
    rw [this]
    exact ⟨hk1, hk2, hk3⟩
  · rw [if_neg hex] at h
    exfalso
    apply h
    simp [InitArrays, hi, hj]

theorem ingA_key (t : Int) (keys : List Int) (A0 : Int → Int → Int) (k : Int)
    (hk : k ∈ keys) : ingA t keys A0 (k / t) (k % t) = k := by
  simp only [ingA]
  rw [if_pos ⟨k, hk, rfl, rfl⟩]
  exact Int.ediv_add_emod k t

/-! ## Sorting -/

theorem swap_store (R : Int → RowStruct) (i j : Int) :
    store (store R i (R j)) j (R i) = fun p => R (Equiv.swap i j p) := by
  funext p
  simp only [store, Equiv.swap_apply_def]
  by_cases h1 : p = j
  · subst h1
    by_cases h2 : p = i
    · subst h2; simp
    · simp [h2]
  · by_cases h2 : p = i
    · subst h2; simp [h1]
    · simp [h1, h2]

/-- A permutation that fixes every point outside `[lo, hi)` maps `[lo, hi)` to
itself. -/
theorem perm_mem_range (τ : Equiv.Perm Int) (lo hi : Int)
    (hfix : ∀ p, ¬ (lo ≤ p ∧ p < hi) → τ p = p) (q : Int) (hq : lo ≤ q ∧ q < hi) :
    lo ≤ τ q ∧ τ q < hi := by
  by_contra h
  have h1 : τ (τ q) = τ q := hfix (τ q) h
  have h2 : τ q = q := τ.injective h1
  rw [h2] at h
  exact h hq

theorem inner_spec (t i : Int) (hi0 : 0 ≤ i) (ht : t ≤ t_Max) :
    ∀ (n : Nat) (j : Int) (R : Int → RowStruct), i < j → j + n = t →
      (∀ m, i < m → m < j → (R m).RowItemCnt ≤ (R i).RowItemCnt) →
      ∃ τ : Equiv.Perm Int, SortRows.inner t i n j R = some (fun p => R (τ p)) ∧
        (∀ p, ¬ (i ≤ p ∧ p < t) → τ p = p) ∧
        ∀ m, i < m → m < t → (R (τ m)).RowItemCnt ≤ (R (τ i)).RowItemCnt := by
  intro n
  induction n with
  | zero =>
    intro j R hij hjn hpre
    refine ⟨1, by simp [SortRows.inner], fun p _ => rfl, ?_⟩
    intro m h1 h2
    simp only [Equiv.Perm.coe_one, id_eq]
    exact hpre m h1 (by push_cast at hjn; omega)
  | succ n ih =>
    intro j R hij hjn hpre
    push_cast at hjn
    have hjt : j < t := by omega
    have hb : inBounds i t_Max ∧ inBounds j t_Max := by
      simp only [inBounds]; omega
    rw [SortRows.inner]
    simp only [hjt, if_true, hb, and_self]
    by_cases hlt : (R i).RowItemCnt < (R j).RowItemCnt
    · simp only [hlt, if_true, swap_store]
      have hpre1 : ∀ m, i < m → m < j + 1 →
          (R (Equiv.swap i j m)).RowItemCnt ≤ (R (Equiv.swap i j i)).RowItemCnt := by
        intro m h1 h2
        rw [Equiv.swap_apply_left]
        by_cases hmj : m = j
        · subst hmj
          rw [Equiv.swap_apply_right]; omega
        · rw [Equiv.swap_apply_of_ne_of_ne (by omega) hmj]
          have := hpre m h1 (by omega)
          omega
      obtain ⟨τ, h1, h2, h3⟩ := ih (j + 1) (fun p => R (Equiv.swap i j p)) (by omega)
        (by omega) hpre1
      refine ⟨Equiv.swap i j * τ, ?_, ?_, ?_⟩
      · rw [h1]; rfl
      · intro p hp
        rw [Equiv.Perm.mul_apply, h2 p hp]
        exact Equiv.swap_apply_of_ne_of_ne (by omega) (by omega)
      · intro m hm1 hm2
        exact h3 m hm1 hm2
    · simp only [hlt, if_false]
      have hpre1 : ∀ m, i < m → m < j + 1 → (R m).RowItemCnt ≤ (R i).RowItemCnt := by
        intro m h1 h2
        by_cases hmj : m = j
        · subst hmj; omega
        · exact hpre m h1 (by omega)
      exact ih (j + 1) R (by omega) (by omega) hpre1

theorem outer_spec (t : Int) (ht : t ≤ t_Max) :
    ∀ (n : Nat) (i : Int) (R : Int → RowStruct), 0 ≤ i → i + n = t - 1 →
      (∀ p q, 0 ≤ p → p < i → p < q → q < t → (R q).RowItemCnt ≤ (R p).RowItemCnt) →
      ∃ σ : Equiv.Perm Int, SortRows.outer t n i R = some (fun p => R (σ p)) ∧
        (∀ p, ¬ (i ≤ p ∧ p < t) → σ p = p) ∧
        ∀ p q, 0 ≤ p → p < q → q < t → (R (σ q)).RowItemCnt ≤ (R (σ p)).RowItemCnt := by
  intro n
  induction n with
  | zero =>
    intro i R hi0 hin hpre
    refine ⟨1, by simp [SortRows.outer], fun p _ => rfl, ?_⟩
    intro p q h1 h2 h3
    simp only [Equiv.Perm.coe_one, id_eq]
    exact hpre p q h1 (by push_cast at hin; omega) h2 h3
  | succ n ih =>
    intro i R hi0 hin hpre
    push_cast at hin
    have hit : i < t - 1 := by omega
    obtain ⟨τ, h1, h2, h3⟩ := inner_spec t i hi0 ht (t - (i + 1)).toNat (i + 1) R (by omega)
      (by omega) (fun m hm1 hm2 => by omega)
    have hpre1 : ∀ p q, 0 ≤ p → p < i + 1 → p < q → q < t →
        (R (τ q)).RowItemCnt ≤ (R (τ p)).RowItemCnt := by
      intro p q hp0 hp1 hpq hqt
      by_cases hpi : p = i
      · subst hpi
        exact h3 q hpq hqt
      · have hp : τ p = p := h2 p (by omega)
        rw [hp]
        by_cases hqi : q < i
        · rw [h2 q (by omega)]
          exact hpre p q hp0 (by omega) hpq hqt
        · have := perm_mem_range τ i t h2 q ⟨by omega, hqt⟩
          exact hpre p (τ q) hp0 (by omega) (by omega) this.2
    obtain ⟨σ, k1, k2, k3⟩ := ih (i + 1) (fun p => R (τ p)) (by omega) (by omega) hpre1
    refine ⟨τ * σ, ?_, ?_, ?_⟩
    · rw [SortRows.outer]
      simp only [hit, if_true, h1, k1]
      rfl
    · intro p hp
      rw [Equiv.Perm.mul_apply, k2 p (by omega), h2 p hp]
    · intro p q hp0 hpq hqt
      exact k3 p q hp0 hpq hqt

/-- `SortRows` returns, rearranges the descriptors by a permutation of the
positions `0..t-1`, and leaves them in descending order of their counts. -/
theorem SortRows_spec (t : Int) (ht1 : 1 ≤ t) (ht : t ≤ t_Max) (g : Globals) :
    ∃ σ : Equiv.Perm Int,
      SortRows t g = some { g with Row := fun p => g.Row (σ p) } ∧
      (∀ p, ¬ (0 ≤ p ∧ p < t) → σ p = p) ∧
      ∀ p q, 0 ≤ p → p < q → q < t →
        (g.Row (σ q)).RowItemCnt ≤ (g.Row (σ p)).RowItemCnt := by
  obtain ⟨σ, h1, h2, h3⟩ := outer_spec t ht (t - 1).toNat 0 g.Row (le_refl _) (by omega)
    (fun p q hp0 hp1 => by omega)
  exact ⟨σ, by unfold SortRows; rw [h1], h2, h3⟩

/-! ## The packer: one row -/

theorem scanCols_spec (t : Int) (g : Globals) (row o : Int) (ht : t ≤ t_Max)
    (hrow : inBounds row t_Max) (ho0 : 0 ≤ o) (ho : o + t ≤ HashTable_Max) :
    ∀ (n : Nat) (k0 : Int), 0 ≤ k0 → k0 + n = t →
      ∃ k1, scanCols t g row o n k0 = some k1 ∧ k0 ≤ k1 ∧ k1 ≤ t ∧
        (∀ k, k0 ≤ k → k < k1 → ¬ (g.C (o + k) ≠ InvalidKey ∧ g.A row k ≠ InvalidKey)) ∧
        (k1 < t → g.C (o + k1) ≠ InvalidKey ∧ g.A row k1 ≠ InvalidKey) := by
  intro n
  induction n with
  | zero =>
    intro k0 hk0 hn
    push_cast at hn
    exact ⟨k0, by simp [scanCols], le_refl _, by omega, fun k h1 h2 => by omega,
      fun h => by omega⟩
  | succ n ih =>
    intro k0 hk0 hn
    push_cast at hn
    have hkt : k0 < t := by omega
    have hbC : inBounds (o + k0) HashTable_Max := by
      simp only [inBounds]; omega
    have hbA : inBounds row t_Max ∧ inBounds k0 t_Max := by
      refine ⟨hrow, ?_⟩
      simp only [inBounds]; omega
    obtain ⟨k1, e1, e2, e3, e4, e5⟩ := ih (k0 + 1) (by omega) (by omega)
    rw [scanCols]
    simp only [hkt, if_true, hbC, hbA, and_self]
    by_cases hC : g.C (o + k0) ≠ InvalidKey
    · by_cases hA : g.A row k0 ≠ InvalidKey
      · refine ⟨k0, by simp [hC, hA], le_refl _, by omega, fun k h1 h2 => by omega,
          fun _ => ⟨hC, hA⟩⟩
      · refine ⟨k1, by simp [hC, hA, e1], by omega, e3, ?_, e5⟩
        intro k h1 h2
        by_cases hk : k = k0
        · subst hk; exact fun h => hA h.2
        · exact e4 k (by omega) h2
    · refine ⟨k1, by simp [hC, e1], by omega, e3, ?_, e5⟩
      intro k h1 h2
      by_cases hk : k = k0
      · subst hk; exact fun h => hC h.1
      · exact e4 k (by omega) h2

theorem insertRow_spec (t : Int) (row o : Int) (ht : t ≤ t_Max)
    (hrow : inBounds row t_Max) (ho0 : 0 ≤ o) (ho : o + t ≤ HashTable_Max) :
    ∀ (n : Nat) (k0 : Int) (g : Globals), 0 ≤ k0 → k0 + n = t →
      insertRow t row o n k0 g = some { g with
        C := fun c =>
          if k0 ≤ c - o ∧ c - o < t ∧ g.A row (c - o) ≠ InvalidKey then g.A row (c - o)
          else g.C c } := by
  intro n
  induction n with
  | zero =>
    intro k0 g hk0 hn
    push_cast at hn
    have : (fun c => if k0 ≤ c - o ∧ c - o < t ∧ g.A row (c - o) ≠ InvalidKey
        then g.A row (c - o) else g.C c) = g.C := by
      funext c
      have : ¬ (k0 ≤ c - o ∧ c - o < t ∧ g.A row (c - o) ≠ InvalidKey) := fun h => by omega
      simp only [this, if_false]
    rw [this]
    simp [insertRow]
  | succ n ih =>
    intro k0 g hk0 hn
    push_cast at hn
    have hkt : k0 < t := by omega
    have hbC : inBounds (o + k0) HashTable_Max := by
      simp only [inBounds]; omega
    have hbA : inBounds row t_Max ∧ inBounds k0 t_Max := by
      refine ⟨hrow, ?_⟩
      simp only [inBounds]; omega
    rw [insertRow]
    simp only [hkt, if_true, hbC, hbA, and_self]
    by_cases hA : g.A row k0 ≠ InvalidKey
    · rw [if_pos hA, ih (k0 + 1) _ (by omega) (by omega)]
      congr 2
      funext c
      simp only [store]
      by_cases hc : c - o = k0
      · have hc2 : c = o + k0 := by omega
        have h1 : ¬ (k0 + 1 ≤ c - o ∧ c - o < t ∧ g.A row (c - o) ≠ InvalidKey) :=
          fun h => by omega
        have h2 : k0 ≤ c - o ∧ c - o < t ∧ g.A row (c - o) ≠ InvalidKey :=
          ⟨by omega, by omega, by rw [hc]; exact hA⟩
        rw [if_neg h1, if_pos h2, hc]
        simp [hc2]
      · have hc2 : ¬ c = o + k0 := by omega
        have h1 : (k0 + 1 ≤ c - o ∧ c - o < t ∧ g.A row (c - o) ≠ InvalidKey) ↔
            (k0 ≤ c - o ∧ c - o < t ∧ g.A row (c - o) ≠ InvalidKey) :=
          ⟨fun h => ⟨by omega, h.2⟩, fun h => ⟨by omega, h.2⟩⟩
        simp only [h1, hc2, if_false]
    · rw [if_neg hA, ih (k0 + 1) g (by omega) (by omega)]
      congr 2
      funext c
      have h1 : (k0 + 1 ≤ c - o ∧ c - o < t ∧ g.A row (c - o) ≠ InvalidKey) ↔
          (k0 ≤ c - o ∧ c - o < t ∧ g.A row (c - o) ≠ InvalidKey) := by
        constructor
        · exact fun h => ⟨by omega, h.2⟩
        · intro h
          refine ⟨?_, h.2⟩
          by_contra hlt
          have : c - o = k0 := by omega
          rw [this] at h
          exact hA h.2.2
      simp only [h1]

theorem tryOffsets_spec (t : Int) (row : Int) (g : Globals) (ht1 : 1 ≤ t) (ht : t ≤ t_Max)
    (hrow : inBounds row t_Max) :
    ∀ (n : Nat) (o0 : Int), 0 ≤ o0 → o0 + n = HashTable_Max - t - 1 →
      ∃ o, o0 ≤ o ∧ o ≤ HashTable_Max - t - 1 ∧
        (∀ o1, o0 ≤ o1 → o1 < o → collides t g row o1) ∧
        ((o = HashTable_Max - t - 1 ∧ tryOffsets t row n o0 g = some (o, g)) ∨
         (o < HashTable_Max - t - 1 ∧ ¬ collides t g row o ∧
           tryOffsets t row n o0 g = some (o, commit t g row o))) := by
  intro n
  induction n with
  | zero =>
    intro o0 h0 hn
    push_cast at hn
    exact ⟨o0, le_refl _, by omega, fun o1 h1 h2 => by omega,
      Or.inl ⟨by omega, by simp [tryOffsets]⟩⟩
  | succ n ih =>
    intro o0 h0 hn
    push_cast at hn
    have hlt : o0 < HashTable_Max - t - 1 := by omega
    obtain ⟨k1, e1, e2, e3, e4, e5⟩ := scanCols_spec t g row o0 ht hrow h0 (by omega)
      t.toNat 0 (le_refl _) (by omega)
    by_cases hk : k1 = t
    · have hnc : ¬ collides t g row o0 := by
        rintro ⟨k, hk0, hk1, hk2⟩
        exact e4 k hk0 (by omega) hk2
      refine ⟨o0, le_refl _, by omega, fun o1 h1 h2 => by omega, Or.inr ⟨hlt, hnc, ?_⟩⟩
      rw [tryOffsets]
      simp only [hlt, if_true, e1, hrow, hk]
      rw [insertRow_spec t row o0 ht hrow h0 (by omega) t.toNat 0 _ (le_refl _) (by omega)]
      rfl
    · have hcol : collides t g row o0 := ⟨k1, e2, by omega, e5 (by omega)⟩
      obtain ⟨o, f1, f2, f3, f4⟩ := ih (o0 + 1) (by omega) (by omega)
      have hstep : tryOffsets t row (n + 1) o0 g = tryOffsets t row n (o0 + 1) g := by
        rw [tryOffsets]
        simp only [hlt, if_true, e1, hk, if_false]
      refine ⟨o, by omega, f2, ?_, ?_⟩
      · intro o1 h1 h2
        by_cases ho : o1 = o0
        · subst ho; exact hcol
        · exact f3 o1 (by omega) h2
      · rw [hstep]; exact f4

/-- One row of the packer: the offset loop returns; it stops at the first
offset without a collision and commits the row there, or runs through every
candidate offset and leaves the globals alone. -/
theorem placeRow_spec (t : Int) (row : Int) (g : Globals) (ht1 : 1 ≤ t) (ht : t ≤ t_Max)
    (hrow : inBounds row t_Max) :
    ∃ o, 0 ≤ o ∧ o ≤ HashTable_Max - t - 1 ∧
      (∀ o1, 0 ≤ o1 → o1 < o → collides t g row o1) ∧
      ((o = HashTable_Max - t - 1 ∧ placeRow t row g = some (o, g)) ∨
       (o < HashTable_Max - t - 1 ∧ ¬ collides t g row o ∧
         placeRow t row g = some (o, commit t g row o))) := by
  have h100 : t_Max = 100 := rfl
  have h1000 : HashTable_Max = 1000 := rfl
  exact tryOffsets_spec t row g ht1 ht hrow (HashTable_Max - t - 1).toNat 0 (le_refl _)
    (by omega)

/-! ## The packer: all rows -/

theorem PackInv_init (t : Int) (g0 : Globals) : PackInv t g0 0 g0 where
  sameA := rfl
  sameRow := rfl
  placed := fun p h1 h2 => by omega
  untouched := fun _ _ => rfl
  written := fun c h => absurd rfl h

theorem PackInv_step (t : Int) (g0 g : Globals) (ndx o : Int)
    (hinj : ∀ p q, inBounds p t_Max → inBounds q t_Max →
      (g0.Row p).RowNumber = (g0.Row q).RowNumber → p = q)
    (hndx : inBounds ndx t_Max) (ho0 : 0 ≤ o) (ho : o < HashTable_Max - t - 1)
    (hnc : ¬ collides t g (g0.Row ndx).RowNumber o) (inv : PackInv t g0 ndx g) :
    PackInv t g0 (ndx + 1) (commit t g (g0.Row ndx).RowNumber o) := by
  have hne : ∀ p, 0 ≤ p → p < ndx → (g0.Row p).RowNumber ≠ (g0.Row ndx).RowNumber := by
    intro p h1 h2 he
    have := hinj p ndx ⟨h1, by have := hndx.2; omega⟩ hndx he
    omega
  have hA := inv.sameA
  constructor
  · exact inv.sameA
  · exact inv.sameRow
  · intro p h1 h2
    by_cases hp : p = ndx
    · subst hp
      have hr : (commit t g (g0.Row p).RowNumber o).r (g0.Row p).RowNumber = o := by
        simp [commit, store]
      rw [hr]
      refine ⟨ho0, ho, ?_⟩
      intro k hk0 hk1 hk2
      have : (o + k - o) = k := by omega
      simp only [commit, this, hA]
      rw [if_pos ⟨hk0, hk1, hk2⟩]
    · have hlt : p < ndx := by omega
      have hr : (commit t g (g0.Row ndx).RowNumber o).r (g0.Row p).RowNumber
          = g.r (g0.Row p).RowNumber := by
        simp [commit, store, hne p h1 hlt]
      rw [hr]
      obtain ⟨i1, i2, i3⟩ := inv.placed p h1 hlt
      refine ⟨i1, i2, ?_⟩
      intro k hk0 hk1 hk2
      have hold := i3 k hk0 hk1 hk2
      simp only [commit]
      rw [if_neg, hold]
      rintro ⟨c1, c2, c3⟩
      apply hnc
      refine ⟨g.r (g0.Row p).RowNumber + k - o, c1, c2, ?_, c3⟩
      have : o + (g.r (g0.Row p).RowNumber + k - o) = g.r (g0.Row p).RowNumber + k := by
        omega
      rw [this, hold]
      exact hk2
  · intro ρ hρ
    have h1 : ρ ≠ (g0.Row ndx).RowNumber := fun e => hρ ndx hndx.1 (by omega) e.symm
    have h2 := inv.untouched ρ (fun p hp0 hp1 => hρ p hp0 (by omega))
    simp [commit, store, h1, h2]
  · intro c hc
    by_cases hw : 0 ≤ c - o ∧ c - o < t ∧ g.A (g0.Row ndx).RowNumber (c - o) ≠ InvalidKey
    · refine ⟨ndx, hndx.1, by omega, c - o, hw.1, hw.2.1, by rw [← hA]; exact hw.2.2, ?_⟩
      simp [commit, store]
    · have hc1 : (commit t g (g0.Row ndx).RowNumber o).C c = g.C c := by
        simp only [commit]
        rw [if_neg hw]
      have hc2 : g.C c ≠ g0.C c := by
        rw [← hc1]; exact hc
      obtain ⟨p, p0, p1, k, k0, k1, k2, k3⟩ := inv.written c hc2
      refine ⟨p, p0, by omega, k, k0, k1, k2, ?_⟩
      simp [commit, store, hne p p0 p1, k3]

/-- The row loop of the packer from position `ndx` on, started in a state
that satisfies the invariant. -/
theorem packRows_spec (t : Int) (g0 : Globals) (ht1 : 1 ≤ t) (ht : t ≤ t_Max)
    (hrows : ∀ p, inBounds p t_Max → inBounds (g0.Row p).RowNumber t_Max)
    (hinj : ∀ p q, inBounds p t_Max → inBounds q t_Max →
      (g0.Row p).RowNumber = (g0.Row q).RowNumber → p = q) :
    ∀ (n : Nat) (ndx : Int) (off : Option Int) (g : Globals),
      0 ≤ ndx → ndx ≤ t_Max → ndx + n = t_Max + 1 → PackInv t g0 ndx g →
      (∀ p, 0 ≤ p → p < ndx → (g0.Row p).RowItemCnt > 0) →
      match packRows t n ndx off g with
      | .completed _ g1 =>
        ∃ m, 0 ≤ m ∧ m < t_Max ∧ PackInv t g0 m g1 ∧ (g0.Row m).RowItemCnt ≤ 0 ∧
          ∀ p, 0 ≤ p → p < m → (g0.Row p).RowItemCnt > 0
      | .failed row g1 =>
        ∃ m, 0 ≤ m ∧ m < t_Max ∧ PackInv t g0 m g1 ∧ row = (g0.Row m).RowNumber ∧
          (∀ p, 0 ≤ p → p ≤ m → (g0.Row p).RowItemCnt > 0) ∧
          ∀ o, 0 ≤ o → o < HashTable_Max - t - 1 → collides t g1 row o
      | .undefined g1 =>
        PackInv t g0 t_Max g1 ∧ ∀ p, 0 ≤ p → p < t_Max → (g0.Row p).RowItemCnt > 0 := by
  intro n
  induction n with
  | zero =>
    intro ndx off g h0 h1 hn
    push_cast at hn
    omega
  | succ n ih =>
    intro ndx off g h0 h1 hn inv hpos
    push_cast at hn
    have hR := inv.sameRow
    by_cases hlt : ndx < t_Max
    · have hb : inBounds ndx t_Max := ⟨h0, hlt⟩
      by_cases hcnt : (g0.Row ndx).RowItemCnt > 0
      · have hpos1 : ∀ p, 0 ≤ p → p < ndx + 1 → (g0.Row p).RowItemCnt > 0 := by
          intro p hp0 hp1
          by_cases hp : p = ndx
          · subst hp; exact hcnt
          · exact hpos p hp0 (by omega)
        obtain ⟨o, o1, o2, o3, o4⟩ :=
          placeRow_spec t (g0.Row ndx).RowNumber g ht1 ht (hrows ndx hb)
        rcases o4 with ⟨o5, o6⟩ | ⟨o5, o6, o7⟩
        · have hval : packRows t (n + 1) ndx off g = .failed (g0.Row ndx).RowNumber g := by
            rw [packRows]
            simp only [hb, if_true, hR, hcnt, o6, o5]
          rw [hval]
          refine ⟨ndx, h0, hlt, inv, rfl, fun p hp0 hp1 => hpos1 p hp0 (by omega), ?_⟩
          intro o9 h90 h91
          exact o3 o9 h90 (by omega)
        · have hne : ¬ o = HashTable_Max - t - 1 := by omega
          have hval : packRows t (n + 1) ndx off g =
              packRows t n (ndx + 1) (some o) (commit t g (g0.Row ndx).RowNumber o) := by
            rw [packRows]
            simp only [hb, if_true, hR, hcnt, o7, hne, if_false]
          rw [hval]
          exact ih (ndx + 1) (some o) _ (by omega) (by omega) (by omega)
            (PackInv_step t g0 g ndx o hinj hb o1 o5 o6 inv) hpos1
      · have hval : packRows t (n + 1) ndx off g = .completed off g := by
          rw [packRows]
          simp only [hb, if_true, hR, hcnt, if_false]
        rw [hval]
        exact ⟨ndx, h0, hlt, inv, by omega, hpos⟩
    · have hb : ¬ inBounds ndx t_Max := fun h => hlt h.2
      have hval : packRows t (n + 1) ndx off g = .undefined g := by
        rw [packRows]
        simp only [hb, if_false]
      rw [hval]
      have he : ndx = t_Max := by omega
      subst he
      exact ⟨inv, hpos⟩

/-! ## The whole run -/

theorem accepted_all (t : Int) (keys : List Int) (h : ∀ k ∈ keys, k / t < t) :
    accepted t keys = keys := by
  unfold accepted
  rw [List.takeWhile_eq_self_iff]
  intro k hk
  simpa using h k hk

/-- On keys that are all in range `main` reaches the packer, which starts
from the ingested matrix and the sorted descriptors. -/
theorem main_unfold (t : Int) (keys : List Int) (ht1 : 1 ≤ t) (ht : t ≤ t_Max)
    (hk : ∀ k ∈ keys, 0 ≤ k ∧ k / t < t) :
    ∃ σ : Equiv.Perm Int,
      (∀ p, ¬ (0 ≤ p ∧ p < t) → σ p = p) ∧
      (∀ p q, 0 ≤ p → p < q → q < t →
        ((packStart t keys σ).Row q).RowItemCnt ≤ ((packStart t keys σ).Row p).RowItemCnt) ∧
      main t (some keys) = packAndReport t keys.length (packStart t keys σ) := by
  have hrd := loop_eq t ht1 ht keys 0 (InitArrays zeroGlobals) (fun k h => (hk k h).1)
  rw [accepted_all t keys (fun k h => (hk k h).2)] at hrd
  have hall : ∀ k ∈ keys, k / t < t := fun k h => (hk k h).2
  rw [if_pos hall, zero_add] at hrd
  obtain ⟨σ, s1, s2, s3⟩ := SortRows_spec t ht1 ht
    { InitArrays zeroGlobals with
      A := ingA t keys (InitArrays zeroGlobals).A
      Row := ingRow t keys (InitArrays zeroGlobals).Row }
  refine ⟨σ, s2, s3, ?_⟩
  have hnot : ¬ t > t_Max := by omega
  unfold main
  simp only [hnot, if_false, ReadKeyData, hrd, s1]
  simp only [Success, ne_eq, not_true_eq_false, if_false]
  rfl

theorem perm_inBounds (t : Int) (ht : t ≤ t_Max) (σ : Equiv.Perm Int)
    (hfix : ∀ p, ¬ (0 ≤ p ∧ p < t) → σ p = p) (p : Int) (hp : inBounds p t_Max) :
    inBounds (σ p) t_Max := by
  by_cases h : 0 ≤ p ∧ p < t
  · have := perm_mem_range σ 0 t hfix p h
    exact ⟨this.1, by omega⟩
  · rw [hfix p h]; exact hp

theorem packStart_Row (t : Int) (keys : List Int) (σ : Equiv.Perm Int) (p : Int)
    (hp : inBounds (σ p) t_Max) :
    (packStart t keys σ).Row p = ⟨σ p, keys.countP (fun k => decide (k / t = σ p))⟩ := by
  simp [packStart, ingRow, InitArrays, hp]

theorem packStart_A (t : Int) (keys : List Int) (σ : Equiv.Perm Int) (i j : Int)
    (hk : ∀ k ∈ keys, 0 ≤ k) (hi : inBounds i t_Max) (hj : inBounds j t_Max) :
    (packStart t keys σ).A i j ≠ InvalidKey ↔ ∃ k ∈ keys, k / t = i ∧ k % t = j := by
  simp only [packStart, ingA, InitArrays, hi, hj, and_self, if_true]
  constructor
  · intro h
    by_contra hn
    rw [if_neg hn] at h
    exact h rfl
  · intro h
    rw [if_pos h]
    obtain ⟨k, hk1, hk2, hk3⟩ := h
    have h0 := hk k hk1
    have := Int.ediv_add_emod k t
    rw [hk2, hk3] at this
    rw [this]
    simp only [InvalidKey]
    omega

theorem packStart_A_key (t : Int) (keys : List Int) (σ : Equiv.Perm Int) (k : Int)
    (hk : k ∈ keys) : (packStart t keys σ).A (k / t) (k % t) = k := by
  simp only [packStart, ingA]
  rw [if_pos ⟨k, hk, rfl, rfl⟩]
  exact Int.ediv_add_emod k t

theorem countP_pos_of_mem (t : Int) (keys : List Int) (k : Int) (hk : k ∈ keys) :
    0 < keys.countP (fun x => decide (x / t = k / t)) :=
  List.countP_pos_iff.mpr ⟨k, hk, by simp⟩

/-- The state a finished run stops in: the packer placed the rows at the
sorted positions `0 .. m-1` and found position `m` empty. -/
theorem main_finished (t : Int) (keys : List Int) (ht1 : 1 ≤ t) (ht : t ≤ t_Max)
    (hk : ∀ k ∈ keys, 0 ≤ k ∧ k / t < t)
    (hfin : (main t (some keys)).status = .finished) :
    ∃ (σ : Equiv.Perm Int) (m : Int) (off : Option Int),
      (∀ p, ¬ (0 ≤ p ∧ p < t) → σ p = p) ∧
      (∀ p q, 0 ≤ p → p < q → q < t →
        ((packStart t keys σ).Row q).RowItemCnt ≤ ((packStart t keys σ).Row p).RowItemCnt) ∧
      0 ≤ m ∧ m < t_Max ∧
      PackInv t (packStart t keys σ) m (main t (some keys)).g ∧
      ((packStart t keys σ).Row m).RowItemCnt ≤ 0 ∧
      (∀ p, 0 ≤ p → p < m → ((packStart t keys σ).Row p).RowItemCnt > 0) ∧
      (main t (some keys)).NumKeys = some (keys.length : Int) ∧
      (main t (some keys)).offset =
        lastEntry (main t (some keys)).g.C HashTable_Max.toNat 0 off := by
  obtain ⟨σ, s1, s2, s3⟩ := main_unfold t keys ht1 ht hk
  have hσ := perm_inBounds t ht σ s1
  have hrows : ∀ p, inBounds p t_Max → inBounds ((packStart t keys σ).Row p).RowNumber t_Max := by
    intro p hp
    rw [packStart_Row t keys σ p (hσ p hp)]
    exact hσ p hp
  have hinj : ∀ p q, inBounds p t_Max → inBounds q t_Max →
      ((packStart t keys σ).Row p).RowNumber = ((packStart t keys σ).Row q).RowNumber →
      p = q := by
    intro p q hp hq
    rw [packStart_Row t keys σ p (hσ p hp), packStart_Row t keys σ q (hσ q hq)]
    exact fun h => σ.injective h
  have spec := packRows_spec t (packStart t keys σ) ht1 ht hrows hinj (t_Max + 1).toNat 0 none
    (packStart t keys σ) (le_refl _) (by simp [t_Max]) (by simp [t_Max]) (PackInv_init t _)
    (fun p h1 h2 => by omega)
  rw [s3] at hfin ⊢
  unfold packAndReport at hfin ⊢
  cases hp : packRows t (t_Max + 1).toNat 0 none (packStart t keys σ) with
  | completed off g2 =>
    rw [hp] at spec
    obtain ⟨m, m1, m2, m3, m4, m5⟩ := spec
    dsimp only
    exact ⟨σ, m, off, s1, s2, m1, m2, m3, m4, m5, rfl, rfl⟩
  | failed row g2 =>
    rw [hp] at hfin
    simp at hfin
  | undefined g2 =>
    rw [hp] at hfin
    simp at hfin

theorem perm_symm_fix (t : Int) (σ : Equiv.Perm Int)
    (hfix : ∀ p, ¬ (0 ≤ p ∧ p < t) → σ p = p) :
    ∀ p, ¬ (0 ≤ p ∧ p < t) → σ.symm p = p := by
  intro p hp
  rw [Equiv.symm_apply_eq]
  exact (hfix p hp).symm

/-- What a finished run leaves in `r` and `C`. -/
theorem main_facts (t : Int) (keys : List Int) (ht1 : 1 ≤ t) (ht : t ≤ t_Max)
    (hk : ∀ k ∈ keys, 0 ≤ k ∧ k / t < t)
    (hfin : (main t (some keys)).status = .finished) :
    (∀ k ∈ keys, 0 ≤ (main t (some keys)).g.r (k / t) ∧
      (main t (some keys)).g.r (k / t) < HashTable_Max - t - 1 ∧
      (main t (some keys)).g.C ((main t (some keys)).g.r (k / t) + k % t) = k) ∧
    (∀ i, inBounds i t_Max → (¬ ∃ k ∈ keys, k / t = i) → (main t (some keys)).g.r i = -1) ∧
    (∀ c, inBounds c HashTable_Max → (main t (some keys)).g.C c ≠ InvalidKey →
      ∃ k ∈ keys, c = (main t (some keys)).g.r (k / t) + k % t) := by
  obtain ⟨σ, m, off, s1, s2, m1, m2, inv, m4, m5, -, -⟩ := main_finished t keys ht1 ht hk hfin
  have hσ := perm_inBounds t ht σ s1
  have hk0 : ∀ k ∈ keys, 0 ≤ k := fun k h => (hk k h).1
  -- every key's row sits at a position the packer went through
  have hpos : ∀ k ∈ keys, ∃ p, 0 ≤ p ∧ p < m ∧ (packStart t keys σ).Row p
      = ⟨k / t, keys.countP (fun x => decide (x / t = k / t))⟩ := by
    intro k hkm
    have h0 : 0 ≤ k / t := Int.ediv_nonneg (hk k hkm).1 (by omega)
    have hlt : k / t < t := (hk k hkm).2
    have hp := perm_mem_range σ.symm 0 t (perm_symm_fix t σ s1) (k / t) ⟨h0, (hk k hkm).2⟩
    have hσp : σ (σ.symm (k / t)) = k / t := Equiv.apply_symm_apply σ _
    have hRow := packStart_Row t keys σ (σ.symm (k / t)) (by rw [hσp]; exact ⟨h0, by omega⟩)
    rw [hσp] at hRow
    have hcnt := countP_pos_of_mem t keys k hkm
    refine ⟨σ.symm (k / t), hp.1, ?_, hRow⟩
    by_contra hge
    by_cases he : m = σ.symm (k / t)
    · rw [he, hRow] at m4
      simp only at m4
      omega
    · have := s2 m (σ.symm (k / t)) m1 (by omega) hp.2
      rw [hRow] at this
      simp only at this
      omega
  refine ⟨?_, ?_, ?_⟩
  · intro k hkm
    obtain ⟨p, p0, p1, hRow⟩ := hpos k hkm
    have hpl := inv.placed p p0 p1
    rw [hRow] at hpl
    simp only at hpl
    obtain ⟨q1, q2, q3⟩ := hpl
    refine ⟨q1, q2, ?_⟩
    have hA := packStart_A_key t keys σ k hkm
    have h1 : 0 ≤ k % t := Int.emod_nonneg k (by omega)
    have h2 : k % t < t := Int.emod_lt_of_pos k (by omega)
    have := q3 (k % t) h1 h2 (by rw [hA]; have := hk0 k hkm; simp only [InvalidKey]; omega)
    rw [this, hA]
  · intro i hi hno
    have hun := inv.untouched i (by
      intro p p0 p1 he
      have hb : inBounds p t_Max := ⟨p0, by omega⟩
      have hRow := packStart_Row t keys σ p (hσ p hb)
      rw [hRow] at he
      simp only at he
      have hc := m5 p p0 p1
      rw [hRow] at hc
      simp only at hc
      have hz : keys.countP (fun k => decide (k / t = σ p)) = 0 := by
        rw [List.countP_eq_zero]
        intro k hkm
        simp only [decide_eq_true_eq]
        intro hkr
        exact hno ⟨k, hkm, by rw [hkr, he]⟩
      rw [hz] at hc
      simp at hc)
    rw [hun]
    simp [packStart, InitArrays, hi]
  · intro c hc hocc
    have hne : (main t (some keys)).g.C c ≠ (packStart t keys σ).C c := by
      have : (packStart t keys σ).C c = InvalidKey := by
        simp [packStart, InitArrays, hc]
      rw [this]; exact hocc
    obtain ⟨p, p0, p1, k, k0, k1, k2, k3⟩ := inv.written c hne
    have hb : inBounds p t_Max := ⟨p0, by omega⟩
    have hRow := packStart_Row t keys σ p (hσ p hb)
    rw [hRow] at k2 k3
    simp only at k2 k3
    obtain ⟨key, e1, e2, e3⟩ :=
      (packStart_A t keys σ (σ p) k hk0 (hσ p hb) ⟨k0, by omega⟩).mp k2
    exact ⟨key, e1, by rw [e2, e3]; exact k3⟩

theorem lastEntry_spec (C : Int → Int) :
    ∀ (n : Nat) (k0 : Int) (off : Option Int), 0 ≤ k0 → k0 + n = HashTable_Max →
      ((∀ c, k0 ≤ c → c < HashTable_Max → C c = InvalidKey) → lastEntry C n k0 off = off) ∧
      (∀ c, k0 ≤ c → c < HashTable_Max → C c ≠ InvalidKey →
        ∃ e, lastEntry C n k0 off = some e ∧ c < e ∧ e ≤ HashTable_Max ∧
          C (e - 1) ≠ InvalidKey ∧ ∀ i, e ≤ i → i < HashTable_Max → C i = InvalidKey) := by
  intro n
  induction n with
  | zero =>
    intro k0 off h0 hn
    push_cast at hn
    exact ⟨fun _ => by simp [lastEntry], fun c h1 h2 => by omega⟩
  | succ n ih =>
    intro k0 off h0 hn
    push_cast at hn
    have hlt : k0 < HashTable_Max := by omega
    have hstep : ∀ o, lastEntry C (n + 1) k0 o =
        lastEntry C n (k0 + 1) (if C k0 ≠ InvalidKey then some (k0 + 1) else o) := by
      intro o
      rw [lastEntry]
      simp only [hlt, if_true]
    obtain ⟨ih1, ih2⟩ := ih (k0 + 1) (if C k0 ≠ InvalidKey then some (k0 + 1) else off)
      (by omega) (by omega)
    rw [hstep]
    constructor
    · intro hall
      rw [ih1 (fun c h1 h2 => hall c (by omega) h2)]
      have := hall k0 (le_refl _) hlt
      simp [this]
    · intro c h1 h2 hocc
      by_cases hup : ∃ d, k0 + 1 ≤ d ∧ d < HashTable_Max ∧ C d ≠ InvalidKey
      · obtain ⟨d, d1, d2, d3⟩ := hup
        by_cases hc : c = k0
        · obtain ⟨e, e1, e2, e3⟩ := ih2 d d1 d2 d3
          exact ⟨e, e1, by omega, e3⟩
        · exact ih2 c (by omega) h2 hocc
      · have hall : ∀ d, k0 + 1 ≤ d → d < HashTable_Max → C d = InvalidKey := by
          intro d d1 d2
          by_contra hd
          exact hup ⟨d, d1, d2, hd⟩
        have hc : c = k0 := by
          by_contra hne
          exact hocc (hall c (by omega) h2)
        subst hc
        rw [ih1 hall, if_pos hocc]
        refine ⟨c + 1, rfl, by omega, by omega, ?_, hall⟩
        have : c + 1 - 1 = c := by omega
        rw [this]
        exact hocc

/-- The reported size of a finished run on a non-empty key set. -/
theorem main_extent (t : Int) (keys : List Int) (ht1 : 1 ≤ t) (ht : t ≤ t_Max)
    (hk : ∀ k ∈ keys, 0 ≤ k ∧ k / t < t) (hne : keys ≠ [])
    (hfin : (main t (some keys)).status = .finished) :
    ∃ e, (main t (some keys)).offset = some e ∧ 1 ≤ e ∧ e ≤ HashTable_Max ∧
      (main t (some keys)).g.C (e - 1) ≠ InvalidKey ∧
      ∀ i, e ≤ i → i < HashTable_Max → (main t (some keys)).g.C i = InvalidKey := by
  obtain ⟨σ, m, off, -, -, -, -, -, -, -, -, hoff⟩ := main_finished t keys ht1 ht hk hfin
  obtain ⟨f1, -, -⟩ := main_facts t keys ht1 ht hk hfin
  obtain ⟨k, hkm⟩ := List.exists_mem_of_ne_nil keys hne
  obtain ⟨r0, r1, hC⟩ := f1 k hkm
  have h1 : 0 ≤ k % t := Int.emod_nonneg k (by omega)
  have h2 : k % t < t := Int.emod_lt_of_pos k (by omega)
  have hk0 := (hk k hkm).1
  have hocc : (main t (some keys)).g.C ((main t (some keys)).g.r (k / t) + k % t)
      ≠ InvalidKey := by
    rw [hC]; simp only [InvalidKey]; omega
  obtain ⟨e, e1, e2, e3, e4, e5⟩ :=
    (lastEntry_spec (main t (some keys)).g.C HashTable_Max.toNat 0 off (le_refl _)
      (by simp [HashTable_Max])).2 _ (by omega) (by omega) hocc
  exact ⟨e, by rw [hoff, e1], by omega, e3, e4, e5⟩

/-- A duplicate-free list of integers from `[0, e)` has at most `e` entries. -/
theorem nodup_length_le (l : List Int) (e : Int) (he : 0 ≤ e) (hn : l.Nodup)
    (h : ∀ x ∈ l, 0 ≤ x ∧ x < e) : (l.length : Int) ≤ e := by
  have hsub : l.toFinset ⊆ Finset.Ico 0 e := by
    intro x hx
    rw [List.mem_toFinset] at hx
    rw [Finset.mem_Ico]
    exact h x hx
  have := Finset.card_le_card hsub
  rw [List.toFinset_card_of_nodup hn, Int.card_Ico] at this
  omega

/-- On a non-empty file of pairwise distinct in-range keys the reported size
is at least the reported key count: the keys occupy pairwise different cells
below the reported size. -/
theorem extent_ge_keyCount (t : Int) (keys : List Int) (ht1 : 1 ≤ t) (ht : t ≤ t_Max)
    (hk : ∀ k ∈ keys, 0 ≤ k ∧ k / t < t) (hne : keys ≠ []) (hnd : keys.Nodup)
    (hfin : (main t (some keys)).status = .finished) :
    ∃ e, (main t (some keys)).offset = some e ∧
      (main t (some keys)).NumKeys = some (keys.length : Int) ∧ (keys.length : Int) ≤ e := by
  obtain ⟨e, e1, e2, e3, -, e5⟩ := main_extent t keys ht1 ht hk hne hfin
  obtain ⟨σ, m, off, -, -, -, -, -, -, -, hnum, -⟩ := main_finished t keys ht1 ht hk hfin
  obtain ⟨f1, -, -⟩ := main_facts t keys ht1 ht hk hfin
  refine ⟨e, e1, hnum, ?_⟩
  have hmap : (keys.map (fun k => (main t (some keys)).g.r (k / t) + k % t)).Nodup := by
    apply List.Nodup.map_on _ hnd
    intro x hx y hy hxy
    have ex := (f1 x hx).2.2
    have ey := (f1 y hy).2.2
    simp only at hxy
    rw [hxy, ey] at ex
    exact ex.symm
  have hlen := nodup_length_le _ e (by omega) hmap (by
    intro c hc
    rw [List.mem_map] at hc
    obtain ⟨k, hkm, rfl⟩ := hc
    obtain ⟨r0, r1, hC⟩ := f1 k hkm
    have h1 : 0 ≤ k % t := Int.emod_nonneg k (by omega)
    have h2 : k % t < t := Int.emod_lt_of_pos k (by omega)
    have hk0 := (hk k hkm).1
    refine ⟨by omega, ?_⟩
    by_contra hge
    have := e5 ((main t (some keys)).g.r (k / t) + k % t) (by omega) (by omega)
    rw [hC] at this
    simp only [InvalidKey] at this
    omega)
  simpa using hlen

/-! ## The claims -/

/-- C1 (lookup correctness).  For `1 ≤ t ≤ 100` and non-negative keys whose
rows `key / t` are all below `t`: when the run finishes (the packer completed
without the "failed to fit row" exit), every key `k` of the file is found in
the final table at `C[r[k / t] + k % t]`. -/
theorem C1_lookup_correct (t : Int) (keys : List Int) (ht1 : 1 ≤ t) (ht : t ≤ 100)
    (hk : ∀ k ∈ keys, 0 ≤ k ∧ k / t < t)
    (hfin : (main t (some keys)).status = Status.finished) :
    ∀ k ∈ keys,
      (main t (some keys)).g.C ((main t (some keys)).g.r (k / t) + k % t) = k :=
  fun k hkm => ((main_facts t keys ht1 ht hk hfin).1 k hkm).2.2

/-- C2 (collision freedom).  In a finished run on non-negative in-range keys
with `1 ≤ t ≤ 100`, two distinct keys of the file never share a table slot. -/
theorem C2_collision_free (t : Int) (keys : List Int) (ht1 : 1 ≤ t) (ht : t ≤ 100)
    (hk : ∀ k ∈ keys, 0 ≤ k ∧ k / t < t)
    (hfin : (main t (some keys)).status = Status.finished) :
    ∀ k1 ∈ keys, ∀ k2 ∈ keys, k1 ≠ k2 →
      (main t (some keys)).g.r (k1 / t) + k1 % t ≠
        (main t (some keys)).g.r (k2 / t) + k2 % t := by
  intro k1 h1 k2 h2 hne heq
  have e1 := ((main_facts t keys ht1 ht hk hfin).1 k1 h1).2.2
  have e2 := ((main_facts t keys ht1 ht hk hfin).1 k2 h2).2.2
  rw [heq, e2] at e1
  exact hne e1.symm

/-- Witness for C1: keys 5, 1, 7, 8, 2, 0 with `t = 3`; key 7 sits in row 2,
which the packer shifts by 2. -/
theorem C1_lookup_correct_witness :
    (main 3 (some [5, 1, 7, 8, 2, 0])).status = Status.finished ∧
    (main 3 (some [5, 1, 7, 8, 2, 0])).g.C
      ((main 3 (some [5, 1, 7, 8, 2, 0])).g.r (7 / 3) + 7 % 3) = 7 :=
  ⟨by decide, C1_lookup_correct 3 [5, 1, 7, 8, 2, 0] (by decide) (by decide) (by decide)
    (by decide) 7 (by decide)⟩

/-- Witness for C2: keys 5 and 8 share column 2 and land in different slots. -/
theorem C2_collision_free_witness :
    (main 3 (some [5, 1, 7, 8, 2, 0])).status = Status.finished ∧
    (main 3 (some [5, 1, 7, 8, 2, 0])).g.r (5 / 3) + 5 % 3 ≠
      (main 3 (some [5, 1, 7, 8, 2, 0])).g.r (8 / 3) + 8 % 3 :=
  ⟨by decide, C2_collision_free 3 [5, 1, 7, 8, 2, 0] (by decide) (by decide) (by decide)
    (by decide) 5 (by decide) 8 (by decide) (by decide)⟩

/-- With `t = 101`, a value `main` refuses, the key 10100 has row `100 < t`:
the control path returns `Success` with key count 1, while the store of line
114 would go to `A[100][0]`, outside the 100 rows of `A`, where the guarded
loop stops. -/
theorem control_beyond_t_Max :
    ReadKeyData.control 101 [10100] 0 = (some Success, 1) ∧
    (ReadKeyData (some [10100]) 101 (InitArrays zeroGlobals)).rc = none ∧
    (main 101 (some [10100])).status = Status.t_value_exit := by
  decide

/-- C9 (ingested key count).  For every `t ≥ 1` and non-negative keys: when
ingestion returns `Success`, `*KeyCount` is the length of the key sequence;
when it returns `key_value_ERROR`, `*KeyCount` is the number of keys before
the first key with `key / t ≥ t`, each of those keys is stored in its cell of
`A`, and no cell of `A` holds anything else.  For `t ≤ 100` ingestion does
return one of the two codes. -/
theorem C9_key_count (t : Int) (keys : List Int) (g : Globals) (ht1 : 1 ≤ t)
    (hk : ∀ k ∈ keys, 0 ≤ k) :
    ((ReadKeyData (some keys) t (InitArrays g)).rc = some Success →
      (ReadKeyData (some keys) t (InitArrays g)).KeyCount = keys.length) ∧
    ((ReadKeyData (some keys) t (InitArrays g)).rc = some key_value_ERROR →
      (ReadKeyData (some keys) t (InitArrays g)).KeyCount
        = (keys.takeWhile (fun k => decide (k / t < t))).length ∧
      (∀ k ∈ keys.takeWhile (fun k => decide (k / t < t)),
        (ReadKeyData (some keys) t (InitArrays g)).g.A (k / t) (k % t) = k) ∧
      (∀ i j, inBounds i t_Max → inBounds j t_Max →
        (ReadKeyData (some keys) t (InitArrays g)).g.A i j ≠ InvalidKey →
        (ReadKeyData (some keys) t (InitArrays g)).g.A i j
          ∈ keys.takeWhile (fun k => decide (k / t < t)))) ∧
    (t ≤ 100 →
      (ReadKeyData (some keys) t (InitArrays g)).rc = some Success ∨
      (ReadKeyData (some keys) t (InitArrays g)).rc = some key_value_ERROR) := by
  have hgen := loop_gen t ht1 keys 0 (InitArrays g) hk
  simp only [ReadKeyData]
  refine ⟨?_, ?_, ?_⟩
  · intro hrc
    have hne : (ReadKeyData.loop t keys 0 (InitArrays g)).rc ≠ none := by
      rw [hrc]; simp
    have hcf := hgen hne
    rw [hcf] at hrc ⊢
    simp only at hrc ⊢
    by_cases hall : ∀ k ∈ keys, k / t < t
    · rw [accepted_all t keys hall]; simp
    · rw [if_neg hall] at hrc
      simp [Success, key_value_ERROR] at hrc
  · intro hrc
    have hne : (ReadKeyData.loop t keys 0 (InitArrays g)).rc ≠ none := by
      rw [hrc]; simp
    have hcf := hgen hne
    rw [hcf]
    simp only
    refine ⟨by simp [accepted], ?_, ?_⟩
    · intro k hkm
      exact ingA_key t (accepted t keys) _ k hkm
    · intro i j hi hj hocc
      exact (ingA_init_occupied t (accepted t keys) g i j hi hj hocc).1
  · intro ht
    rw [loop_eq t ht1 ht keys 0 (InitArrays g) hk]
    simp only
    by_cases hall : ∀ k ∈ keys, k / t < t
    · rw [if_pos hall]; exact Or.inl rfl
    · rw [if_neg hall]; exact Or.inr rfl

/-- Witness for C9: keys 7, 3, 100, 4 with `t = 5`; ingestion stops at the
third key and has counted two. -/
theorem C9_key_count_witness :
    (ReadKeyData (some [7, 3, 100, 4]) 5 (InitArrays zeroGlobals)).rc = some key_value_ERROR ∧
    (ReadKeyData (some [7, 3, 100, 4]) 5 (InitArrays zeroGlobals)).KeyCount = 2 :=
  ⟨by decide,
   ((C9_key_count 5 [7, 3, 100, 4] zeroGlobals (by decide) (by decide)).2.1
      (by decide)).1.trans (by decide)⟩

/-- C4 (capacity failure exactly when no offset fits).  One pass of the row
loop over a non-empty descriptor `Row[ndx]` whose row number lies inside `A`,
from any table `g.C` (the table built from the rows placed before): the offset
loop returns an offset `o`; `o` is the loop bound `HashTable_Max - t - 1`, and
the packer stops with "failed to fit row", if and only if every candidate
offset has a column `k < t` with both `C[o1+k]` and `A[row][k]` occupied;
otherwise `o` is a candidate offset without any such collision, it is recorded
in `r[row]`, and the packer goes on to the next descriptor. -/
theorem C4_capacity_failure (t : Int) (g : Globals) (ndx : Int) (fuel : Nat)
    (off : Option Int) (ht1 : 1 ≤ t) (ht : t ≤ 100) (hndx : inBounds ndx t_Max)
    (hcnt : (g.Row ndx).RowItemCnt > 0) (hrow : inBounds (g.Row ndx).RowNumber t_Max) :
    ∃ o g1, placeRow t (g.Row ndx).RowNumber g = some (o, g1) ∧
      (o = HashTable_Max - t - 1 ↔
        ∀ o1, 0 ≤ o1 → o1 < HashTable_Max - t - 1 →
          ∃ k, 0 ≤ k ∧ k < t ∧ g.C (o1 + k) ≠ InvalidKey ∧
            g.A (g.Row ndx).RowNumber k ≠ InvalidKey) ∧
      (o = HashTable_Max - t - 1 →
        packRows t (fuel + 1) ndx off g = PackResult.failed (g.Row ndx).RowNumber g1) ∧
      (o ≠ HashTable_Max - t - 1 →
        0 ≤ o ∧ o < HashTable_Max - t - 1 ∧
        (¬ ∃ k, 0 ≤ k ∧ k < t ∧ g.C (o + k) ≠ InvalidKey ∧
          g.A (g.Row ndx).RowNumber k ≠ InvalidKey) ∧
        g1.r (g.Row ndx).RowNumber = o ∧
        packRows t (fuel + 1) ndx off g = packRows t fuel (ndx + 1) (some o) g1) := by
  obtain ⟨o, o1, o2, o3, o4⟩ := placeRow_spec t (g.Row ndx).RowNumber g ht1 ht hrow
  rcases o4 with ⟨o5, o6⟩ | ⟨o5, o6, o7⟩
  · refine ⟨o, g, o6, ?_, ?_, fun h => absurd o5 h⟩
    · constructor
      · intro _ o9 h1 h2
        exact o3 o9 h1 (by omega)
      · exact fun _ => o5
    · intro _
      rw [packRows]
      simp only [hndx, if_true, hcnt, o6, o5]
  · refine ⟨o, commit t g (g.Row ndx).RowNumber o, o7, ?_, fun h => by omega, ?_⟩
    · constructor
      · intro h; omega
      · intro hall
        exact absurd (hall o o1 o5) o6
    · intro hne
      refine ⟨o1, o5, o6, by simp [commit, store], ?_⟩
      rw [packRows]
      simp only [hndx, if_true, hcnt, o7, hne, if_false]

/-- Witness for C4: after ingesting the single key 5 with `t = 3` the
descriptor `Row[1]` is non-empty; the pass over it returns an offset, and an
offset other than the loop bound is recorded in `r[1]`. -/
theorem C4_capacity_failure_witness :
    inBounds 1 t_Max ∧
    ((ReadKeyData (some [5]) 3 (InitArrays zeroGlobals)).g.Row 1).RowItemCnt > 0 ∧
    ∃ o g1, placeRow 3 1 (ReadKeyData (some [5]) 3 (InitArrays zeroGlobals)).g = some (o, g1) ∧
      (o ≠ HashTable_Max - 3 - 1 → g1.r 1 = o) := by
  obtain ⟨o, g1, h1, -, -, h4⟩ :=
    C4_capacity_failure 3 (ReadKeyData (some [5]) 3 (InitArrays zeroGlobals)).g 1 0 none
      (by decide) (by decide) (by decide) (by decide) (by decide)
  exact ⟨by decide, by decide, o, g1, h1, fun hne => (h4 hne).2.2.2.1⟩

theorem tdiv_eq_ediv_of_nonneg (a b : Int) (ha : 0 ≤ a) : Int.tdiv a b = a / b := by
  by_cases hb : 0 ≤ b
  · exact Int.tdiv_eq_ediv ha hb
  · have h1 : b = -(-b) := by omega
    rw [h1, Int.tdiv_neg, Int.ediv_neg, Int.tdiv_eq_ediv ha (by omega)]

/-- With `t ≤ 0` the loop cannot get past a first key that is non-negative
and has `key / t < t`. -/
theorem loop_nonpos (t : Int) (ht : t ≤ 0) (key : Int) (rest : List Int) (n : Int)
    (g : Globals) (h0 : 0 ≤ key) (hr : key / t < t) :
    ReadKeyData.loop t (key :: rest) n g = ⟨none, n, g⟩ := by
  rw [ReadKeyData.loop]
  by_cases htz : t = 0
  · simp [htz]
  · have hd : Int.tdiv key t = key / t := tdiv_eq_ediv_of_nonneg key t h0
    have hnot : ¬ (key / t ≥ t) := by omega
    have hb : ¬ (inBounds (key / t) t_Max ∧ inBounds (Int.tmod key t) t_Max) := by
      intro h
      have := h.1.1
      omega
    simp only [htz, if_false, hd, hnot, hb]

/-- Ingestion does not depend on the order of in-range keys. -/
theorem ReadKeyData_perm (t : Int) (keys1 keys2 : List Int) (g : Globals)
    (hperm : keys1.Perm keys2) (hk : ∀ k ∈ keys1, 0 ≤ k ∧ k / t < t) (ht : t ≤ t_Max) :
    ReadKeyData (some keys1) t g = ReadKeyData (some keys2) t g := by
  have hk2 : ∀ k ∈ keys2, 0 ≤ k ∧ k / t < t := fun k h => hk k (hperm.mem_iff.mpr h)
  simp only [ReadKeyData]
  by_cases ht1 : 1 ≤ t
  · rw [loop_eq t ht1 ht keys1 0 g (fun k h => (hk k h).1),
      loop_eq t ht1 ht keys2 0 g (fun k h => (hk2 k h).1),
      accepted_all t keys1 (fun k h => (hk k h).2),
      accepted_all t keys2 (fun k h => (hk2 k h).2),
      if_pos (fun k h => (hk k h).2), if_pos (fun k h => (hk2 k h).2), hperm.length_eq]
    have hA : ingA t keys1 g.A = ingA t keys2 g.A := by
      funext i j
      simp only [ingA]
      have : (∃ k ∈ keys1, k / t = i ∧ k % t = j) ↔ (∃ k ∈ keys2, k / t = i ∧ k % t = j) :=
        ⟨fun ⟨k, h1, h2⟩ => ⟨k, hperm.mem_iff.mp h1, h2⟩,
         fun ⟨k, h1, h2⟩ => ⟨k, hperm.mem_iff.mpr h1, h2⟩⟩
      simp only [this]
    have hR : ingRow t keys1 g.Row = ingRow t keys2 g.Row := by
      funext i
      simp only [ingRow, hperm.countP_eq]
    rw [hA, hR]
  · cases keys1 with
    | nil =>
      rw [← hperm.nil_eq]
    | cons k1 r1 =>
      cases keys2 with
      | nil => exact absurd hperm.eq_nil (by simp)
      | cons k2 r2 =>
        have a1 := hk k1 (List.mem_cons_self _ _)
        have a2 := hk2 k2 (List.mem_cons_self _ _)
        rw [loop_nonpos t (by omega) k1 r1 0 g a1.1 a1.2,
          loop_nonpos t (by omega) k2 r2 0 g a2.1 a2.2]

/-- C5 (determinism on the key set).  Two key sequences that are permutations
of each other, with non-negative keys whose rows `key / t` are below `t`, and
the same `t`, give the same run: the same way of stopping (finished, or failed
on the same row), the same key count and reported size, and the same arrays
`A`, `r`, `C` and `Row`. -/
theorem C5_determinism (t : Int) (keys1 keys2 : List Int) (hperm : keys1.Perm keys2)
    (hk : ∀ k ∈ keys1, 0 ≤ k ∧ k / t < t) :
    main t (some keys1) = main t (some keys2) := by
  unfold main
  by_cases ht : t > t_Max
  · rw [if_pos ht, if_pos ht]
  · rw [if_neg ht, if_neg ht,
      ReadKeyData_perm t keys1 keys2 (InitArrays zeroGlobals) hperm hk (by omega)]

/-- Witness for C5: the keys 5, 1, 7 in two orders, `t = 3`. -/
theorem C5_determinism_witness :
    main 3 (some [5, 1, 7]) = main 3 (some [7, 5, 1]) :=
  C5_determinism 3 [5, 1, 7] [7, 5, 1] (by decide) (by decide)

/-- C6 (displacement defined exactly for the non-empty rows).  After a finished
run with `1 ≤ t ≤ 100` on non-negative in-range keys: for every row `i < t`,
`r[i] ≥ 0` if and only if some key has `key / t = i`; and every row of `r`
without a key still holds the value `-1` that `InitArrays` gave it (the packer
assigns `r[row]` for each row it processes, so such a row was not processed). -/
theorem C6_displacement_defined (t : Int) (keys : List Int) (ht1 : 1 ≤ t) (ht : t ≤ 100)
    (hk : ∀ k ∈ keys, 0 ≤ k ∧ k / t < t)
    (hfin : (main t (some keys)).status = Status.finished) :
    (∀ i, 0 ≤ i → i < t →
      (0 ≤ (main t (some keys)).g.r i ↔ ∃ k ∈ keys, k / t = i)) ∧
    (∀ i, 0 ≤ i → i < 100 → (¬ ∃ k ∈ keys, k / t = i) →
      (main t (some keys)).g.r i = -1) := by
  obtain ⟨f1, f2, -⟩ := main_facts t keys ht1 ht hk hfin
  refine ⟨?_, fun i h0 h1 hno => f2 i ⟨h0, h1⟩ hno⟩
  intro i h0 h1
  constructor
  · intro hr
    by_contra hno
    have := f2 i ⟨h0, by simp only [t_Max]; omega⟩ hno
    omega
  · rintro ⟨k, hkm, rfl⟩
    exact (f1 k hkm).1

/-- Witness for C6: keys 5 and 7 with `t = 3` fill rows 1 and 2 and leave row 0
empty. -/
theorem C6_displacement_defined_witness :
    (main 3 (some [5, 7])).status = Status.finished ∧
    (main 3 (some [5, 7])).g.r 0 = -1 ∧
    (0 ≤ (main 3 (some [5, 7])).g.r 1 ↔ ∃ k ∈ [(5 : Int), 7], k / 3 = 1) :=
  ⟨by decide,
   (C6_displacement_defined 3 [5, 7] (by decide) (by decide) (by decide) (by decide)).2 0
     (by decide) (by decide) (by decide),
   (C6_displacement_defined 3 [5, 7] (by decide) (by decide) (by decide) (by decide)).1 1
     (by decide) (by decide)⟩

/-- C7 (extent is one plus the highest occupied index).  After a finished run
with `1 ≤ t ≤ 100` on a non-empty sequence of non-negative in-range keys, the
reported hash table size `e` (the final value of `offset`) is defined,
`1 ≤ e ≤ HashTable_Max`, `C[e-1]` is occupied and `C[i]` is empty for every `i`
with `e ≤ i < HashTable_Max`. -/
theorem C7_extent (t : Int) (keys : List Int) (ht1 : 1 ≤ t) (ht : t ≤ 100)
    (hk : ∀ k ∈ keys, 0 ≤ k ∧ k / t < t) (hne : keys ≠ [])
    (hfin : (main t (some keys)).status = Status.finished) :
    ∃ e, (main t (some keys)).offset = some e ∧ 1 ≤ e ∧ e ≤ HashTable_Max ∧
      (main t (some keys)).g.C (e - 1) ≠ InvalidKey ∧
      ∀ i, e ≤ i → i < HashTable_Max → (main t (some keys)).g.C i = InvalidKey :=
  main_extent t keys ht1 ht hk hne hfin

set_option maxRecDepth 100000 in
/-- Witness for C7: keys 5, 1, 7, 8, 2, 0 with `t = 3` fill the cells 0..5 of
the table; the reported size is 6. -/
theorem C7_extent_witness :
    (main 3 (some [5, 1, 7, 8, 2, 0])).status = Status.finished ∧
    ∃ e, (main 3 (some [5, 1, 7, 8, 2, 0])).offset = some e ∧ 1 ≤ e ∧ e ≤ HashTable_Max ∧
      (main 3 (some [5, 1, 7, 8, 2, 0])).g.C (e - 1) ≠ InvalidKey ∧
      ∀ i, e ≤ i → i < HashTable_Max → (main 3 (some [5, 1, 7, 8, 2, 0])).g.C i = InvalidKey :=
  ⟨by decide, C7_extent 3 [5, 1, 7, 8, 2, 0] (by decide) (by decide) (by decide) (by decide)
    (by decide)⟩

set_option maxRecDepth 100000 in
/-- C8, the run on an empty key file (`t = 3`): ingestion succeeds with key
count 0, no row is placed, the run finishes, and the local `offset` that is
printed as the hash table size was never assigned. -/
theorem C8_empty_file_extent_unassigned :
    (main 3 (some [])).status = Status.finished ∧
    (main 3 (some [])).NumKeys = some 0 ∧
    (main 3 (some [])).offset = none := by
  decide

/-- C10 (rows ordered by descending occupancy).  For `1 ≤ t ≤ 100` and any
content of `Row`, `SortRows(t)` returns and leaves
`Row[i].RowItemCnt ≥ Row[j].RowItemCnt` for all `i < j < t`; consequently among
the first `t` descriptors every one with count zero comes after every one with
a positive count. -/
theorem C10_sorted_descending (t : Int) (g : Globals) (ht1 : 1 ≤ t) (ht : t ≤ 100) :
    ∃ g1, SortRows t g = some g1 ∧
      (∀ i j, 0 ≤ i → i < j → j < t → (g1.Row i).RowItemCnt ≥ (g1.Row j).RowItemCnt) ∧
      (∀ i j, 0 ≤ i → i < t → 0 ≤ j → j < t →
        (g1.Row i).RowItemCnt = 0 → (g1.Row j).RowItemCnt > 0 → j < i) := by
  obtain ⟨σ, h1, -, h3⟩ := SortRows_spec t ht1 ht g
  refine ⟨_, h1, fun i j hi hij hj => h3 i j hi hij hj, ?_⟩
  intro i j hi0 hit hj0 hjt hz hp
  by_contra hge
  by_cases he : i = j
  · subst he; omega
  · have := h3 i j hi0 (by omega) hjt
    simp only at hz hp
    omega

/-- Witness for C10: the descriptors counted from the keys 5, 1, 7, 8, 2, 0 with
`t = 3` (counts 3, 1, 2). -/
theorem C10_sorted_descending_witness :
    ∃ g1, SortRows 3 (ReadKeyData (some [5, 1, 7, 8, 2, 0]) 3 (InitArrays zeroGlobals)).g
        = some g1 ∧
      (g1.Row 0).RowItemCnt ≥ (g1.Row 1).RowItemCnt ∧
      (g1.Row 1).RowItemCnt ≥ (g1.Row 2).RowItemCnt := by
  obtain ⟨g1, h1, h2, -⟩ := C10_sorted_descending 3
    (ReadKeyData (some [5, 1, 7, 8, 2, 0]) 3 (InitArrays zeroGlobals)).g (by decide) (by decide)
  exact ⟨g1, h1, h2 0 1 (by decide) (by decide) (by decide),
    h2 1 2 (by decide) (by decide) (by decide)⟩

/-- C12 (the acceptance test is the documented `t*t` bound).  For every
`t ≥ 1` and every key `≥ 0`: the test of line 113 lets the key through
(`key / t < t` under C integer division) if and only if `key < t*t`; put on
the loop itself, ingestion of the single key returns `key_value_ERROR` if and
only if `key ≥ t*t`. -/
theorem C12_acceptance_bound (t key : Int) (g : Globals) (ht1 : 1 ≤ t) (hk : 0 ≤ key) :
    (Int.tdiv key t < t ↔ key < t * t) ∧
    ((ReadKeyData (some [key]) t g).rc = some key_value_ERROR ↔ ¬ key < t * t) := by
  have hd : Int.tdiv key t = key / t := Int.tdiv_eq_ediv hk (by omega)
  have hiff : key / t < t ↔ key < t * t := Int.ediv_lt_iff_lt_mul (by omega)
  have htz : t ≠ 0 := by omega
  refine ⟨by rw [hd]; exact hiff, ?_⟩
  simp only [ReadKeyData, ReadKeyData.loop, htz, if_false, hd]
  by_cases h : key / t ≥ t
  · rw [if_pos h]
    simp only [true_iff]
    intro hlt
    have := hiff.mpr hlt
    omega
  · rw [if_neg h]
    have hlt : key < t * t := hiff.mp (by omega)
    by_cases hb : inBounds (key / t) t_Max ∧ inBounds (Int.tmod key t) t_Max
    · rw [if_pos hb]
      simp [Success, key_value_ERROR, hlt]
    · rw [if_neg hb]
      simp [hlt]

/-- Witness for C12: with `t = 3` the key 8 passes the test and the key 9 is
rejected. -/
theorem C12_acceptance_bound_witness :
    (Int.tdiv 8 3 < 3 ↔ (8 : Int) < 3 * 3) ∧
    (ReadKeyData (some [9]) 3 (InitArrays zeroGlobals)).rc = some key_value_ERROR :=
  ⟨(C12_acceptance_bound 3 8 (InitArrays zeroGlobals) (by decide) (by decide)).1,
   (C12_acceptance_bound 3 9 (InitArrays zeroGlobals) (by decide) (by decide)).2.mpr
     (by decide)⟩

theorem mem_upTo (n x : Int) : x ∈ upTo n ↔ 0 ≤ x ∧ x < n := by
  simp only [upTo, List.mem_map, List.mem_range]
  constructor
  · rintro ⟨i, hi, rfl⟩
    simp only [Int.ofNat_eq_coe]
    omega
  · intro h
    exact ⟨x.toNat, by omega, by simp only [Int.ofNat_eq_coe]; omega⟩

theorem nodup_upTo (n : Int) : (upTo n).Nodup :=
  List.Nodup.map (fun a b h => by simpa using h) (List.nodup_range _)

/-- A permutation of the integers that fixes every point outside `[0, n)`
rearranges the list `0, 1, .., n-1`. -/
theorem perm_upTo_map (σ : Equiv.Perm Int) (n : Int)
    (hfix : ∀ p, ¬ (0 ≤ p ∧ p < n) → σ p = p) :
    ((upTo n).map σ).Perm (upTo n) := by
  rw [List.perm_ext_iff_of_nodup (List.Nodup.map σ.injective (nodup_upTo n)) (nodup_upTo n)]
  intro x
  simp only [List.mem_map, mem_upTo]
  constructor
  · rintro ⟨i, hi, rfl⟩
    exact perm_mem_range σ 0 n hfix i hi
  · intro hx
    have hfix2 : ∀ p, ¬ (0 ≤ p ∧ p < n) → σ.symm p = p := by
      intro p hp
      rw [Equiv.symm_apply_eq]
      exact (hfix p hp).symm
    exact ⟨σ.symm x, perm_mem_range σ.symm 0 n hfix2 x hx, Equiv.apply_symm_apply σ _⟩

/-- C14 (`SortRows` only permutes descriptors).  For `1 ≤ t ≤ 100` and any
content of the globals, `SortRows(t)` returns; the entries `Row[0..t-1]`
afterwards are a permutation of the entries before (whole descriptors, so each
`RowNumber` keeps its own `RowItemCnt`); every entry `Row[i]` outside
`0 ≤ i < t` is unchanged; when `Row[i].RowNumber = i` held before for all
`i < t` (the state `InitArrays` sets up), the `RowNumber` fields afterwards are
a permutation of `0 .. t-1`; and `A`, `r` and `C` are not touched. -/
theorem C14_sort_permutes (t : Int) (g : Globals) (ht1 : 1 ≤ t) (ht : t ≤ 100) :
    ∃ g1, SortRows t g = some g1 ∧
      ((upTo t).map g1.Row).Perm ((upTo t).map g.Row) ∧
      (∀ i, ¬ (0 ≤ i ∧ i < t) → g1.Row i = g.Row i) ∧
      ((∀ i, 0 ≤ i → i < t → (g.Row i).RowNumber = i) →
        ((upTo t).map (fun i => (g1.Row i).RowNumber)).Perm (upTo t)) ∧
      g1.A = g.A ∧ g1.r = g.r ∧ g1.C = g.C := by
  obtain ⟨σ, h1, h2, -⟩ := SortRows_spec t ht1 ht g
  have hperm := perm_upTo_map σ t h2
  refine ⟨_, h1, ?_, ?_, ?_, rfl, rfl, rfl⟩
  · have := hperm.map g.Row
    simpa [List.map_map, Function.comp_def] using this
  · intro i hi
    simp only
    rw [h2 i hi]
  · intro hnum
    have h3 : (upTo t).map (fun i => (g.Row (σ i)).RowNumber) = (upTo t).map σ := by
      apply List.map_congr_left
      intro i hi
      rw [mem_upTo] at hi
      have := perm_mem_range σ 0 t h2 i hi
      exact hnum _ this.1 this.2
    simp only
    rw [h3]
    exact hperm

/-- Witness for C14: the descriptors counted from the keys 5, 1, 7, 8, 2, 0
with `t = 3`. -/
theorem C14_sort_permutes_witness :
    ∃ g1, SortRows 3 (ReadKeyData (some [5, 1, 7, 8, 2, 0]) 3 (InitArrays zeroGlobals)).g
        = some g1 ∧
      ((upTo 3).map (fun i => (g1.Row i).RowNumber)).Perm (upTo 3) := by
  obtain ⟨g1, h1, -, -, h4, -⟩ := C14_sort_permutes 3
    (ReadKeyData (some [5, 1, 7, 8, 2, 0]) 3 (InitArrays zeroGlobals)).g (by decide) (by decide)
  exact ⟨g1, h1, h4 (by decide)⟩

/-! ## Counting filled cells -/

/-- Started from `InitArrays`, a cell inside `A` is occupied exactly when some
stored key belongs there. -/
theorem ingA_occupied_iff (t : Int) (keys : List Int) (g : Globals) (i j : Int)
    (hk : ∀ k ∈ keys, 0 ≤ k) (hi : inBounds i t_Max) (hj : inBounds j t_Max) :
    ingA t keys (InitArrays g).A i j ≠ InvalidKey ↔ ∃ k ∈ keys, k / t = i ∧ k % t = j := by
  constructor
  · intro h
    obtain ⟨h1, h2, h3⟩ := ingA_init_occupied t keys g i j hi hj h
    exact ⟨_, h1, h2, h3⟩
  · rintro ⟨k, hkm, rfl, rfl⟩
    rw [ingA_key t keys _ k hkm]
    have := hk k hkm
    simp only [InvalidKey]
    omega

/-- The filled cells of row `i` correspond to the distinct keys of that row. -/
theorem filledInRow_ing (t : Int) (keys : List Int) (g : Globals) (i : Int)
    (ht1 : 1 ≤ t) (ht : t ≤ t_Max) (hk : ∀ k ∈ keys, 0 ≤ k) (hi0 : 0 ≤ i) (hit : i < t) :
    filledInRow t (ingA t keys (InitArrays g).A) i
      = keys.dedup.countP (fun k => decide (k / t = i)) := by
  unfold filledInRow
  rw [List.countP_eq_length_filter, List.countP_eq_length_filter]
  have hinj : Function.Injective (fun j : Int => t * i + j) := fun a b h => by
    simp only at h; omega
  have h1 : (((upTo t).filter
      (fun j => decide (ingA t keys (InitArrays g).A i j ≠ InvalidKey))).map
      (fun j => t * i + j)).Nodup :=
    List.Nodup.map hinj ((nodup_upTo t).filter _)
  have h2 : (keys.dedup.filter (fun k => decide (k / t = i))).Nodup :=
    (List.nodup_dedup keys).filter _
  have hperm : (((upTo t).filter
      (fun j => decide (ingA t keys (InitArrays g).A i j ≠ InvalidKey))).map
      (fun j => t * i + j)).Perm (keys.dedup.filter (fun k => decide (k / t = i))) := by
    rw [List.perm_ext_iff_of_nodup h1 h2]
    intro x
    simp only [List.mem_map, List.mem_filter, mem_upTo, decide_eq_true_eq, List.mem_dedup]
    constructor
    · rintro ⟨j, ⟨⟨hj0, hjt⟩, hocc⟩, rfl⟩
      obtain ⟨k, hkm, e1, e2⟩ := (ingA_occupied_iff t keys g i j hk ⟨hi0, by omega⟩
        ⟨hj0, by omega⟩).mp hocc
      have := Int.ediv_add_emod k t
      rw [e1, e2] at this
      rw [this]
      exact ⟨hkm, e1⟩
    · rintro ⟨hxm, hxi⟩
      have h0 : 0 ≤ x % t := Int.emod_nonneg x (by omega)
      have h3 : x % t < t := Int.emod_lt_of_pos x (by omega)
      refine ⟨x % t, ⟨⟨h0, h3⟩, ?_⟩, ?_⟩
      · exact (ingA_occupied_iff t keys g i (x % t) hk ⟨hi0, by omega⟩
          ⟨h0, by omega⟩).mpr ⟨x, hxm, hxi, rfl⟩
      · rw [← hxi]
        exact Int.ediv_add_emod x t
  have := hperm.length_eq
  rw [List.length_map] at this
  exact this

theorem countP_dedup_lt (p : Int → Bool) :
    ∀ (l : List Int) (k : Int), 2 ≤ l.count k → p k = true →
      l.dedup.countP p < l.countP p := by
  intro l
  induction l with
  | nil => intro k h; simp at h
  | cons a l ih =>
    intro k hc hp
    have hle : l.dedup.countP p ≤ l.countP p := (List.dedup_sublist l).countP_le p
    by_cases ha : a ∈ l
    · rw [List.dedup_cons_of_mem ha, List.countP_cons]
      by_cases hka : k = a
      · subst hka
        simp only [hp, if_true]
        omega
      · have hc2 : 2 ≤ l.count k := by
          rw [List.count_cons_of_ne hka] at hc
          exact hc
        have := ih k hc2 hp
        omega
    · rw [List.dedup_cons_of_not_mem ha, List.countP_cons, List.countP_cons]
      have hka : k ≠ a := by
        rintro rfl
        rw [List.count_cons_self, List.count_eq_zero_of_not_mem ha] at hc
        omega
      have hc2 : 2 ≤ l.count k := by
        rw [List.count_cons_of_ne hka] at hc
        exact hc
      have := ih k hc2 hp
      omega

theorem sum_indicator_upTo (t x : Int) (hx : 0 ≤ x ∧ x < t) :
    ((upTo t).map (fun i => if x = i then 1 else 0)).sum = 1 := by
  have hgen : ∀ n : Nat, ((List.range n).map
      (fun i : Nat => if x = (i : Int) then 1 else 0)).sum = if x < n then 1 else 0 := by
    intro n
    induction n with
    | zero =>
      have h0 : ¬ x < 0 := by omega
      simp [h0]
    | succ n ih =>
      rw [List.range_succ, List.map_append, List.sum_append, ih]
      simp only [List.map_cons, List.map_nil, List.sum_cons, List.sum_nil, add_zero]
      push_cast
      by_cases h1 : x < n
      · have h2 : ¬ x = n := by omega
        have h3 : x < n + 1 := by omega
        simp [h1, h2, h3]
      · by_cases h2 : x = n
        · have h3 : x < n + 1 := by omega
          simp [h1, h2, h3]
        · have h3 : ¬ x < n + 1 := by omega
          simp [h1, h2, h3]
  have := hgen t.toNat
  simp only [upTo, List.map_map, Function.comp_def, Int.ofNat_eq_coe]
  rw [this, if_pos (by omega)]

/-- The per-row counts of a list of in-range keys add up to its length. -/
theorem sum_countP_rows (t : Int) :
    ∀ (l : List Int), (∀ k ∈ l, 0 ≤ k / t ∧ k / t < t) →
      ((upTo t).map (fun i => l.countP (fun k => decide (k / t = i)))).sum = l.length := by
  intro l
  induction l with
  | nil => intro _; simp
  | cons a l ih =>
    intro h
    have ha := h a (List.mem_cons_self _ _)
    have hl := ih (fun k hk => h k (List.mem_cons_of_mem _ hk))
    have hsplit : (fun i => (a :: l).countP (fun k => decide (k / t = i)))
        = (fun i => l.countP (fun k => decide (k / t = i)) + if a / t = i then 1 else 0) := by
      funext i
      rw [List.countP_cons]
      simp
    rw [hsplit, List.sum_map_add, hl, sum_indicator_upTo t (a / t) ha]
    simp

theorem filledCells_ing (t : Int) (keys : List Int) (g : Globals)
    (ht1 : 1 ≤ t) (ht : t ≤ t_Max) (hk : ∀ k ∈ keys, 0 ≤ k ∧ k / t < t) :
    filledCells t (ingA t keys (InitArrays g).A) = keys.dedup.length := by
  unfold filledCells
  have h1 : (upTo t).map (fun i => filledInRow t (ingA t keys (InitArrays g).A) i)
      = (upTo t).map (fun i => keys.dedup.countP (fun k => decide (k / t = i))) := by
    apply List.map_congr_left
    intro i hi
    rw [mem_upTo] at hi
    exact filledInRow_ing t keys g i ht1 ht (fun k h => (hk k h).1) hi.1 hi.2
  rw [h1]
  apply sum_countP_rows
  intro k hkm
  rw [List.mem_dedup] at hkm
  exact ⟨Int.ediv_nonneg (hk k hkm).1 (by omega), (hk k hkm).2⟩

theorem dedup_length_lt (l : List Int) (h : ¬ l.Nodup) : l.dedup.length < l.length := by
  have hle := (List.dedup_sublist l).length_le
  by_contra hge
  have heq : l.dedup = l := (List.dedup_sublist l).eq_of_length_le (by omega)
  exact h (List.dedup_eq_self.mp heq)

/-- The state ingestion of in-range keys leaves behind, started after
`InitArrays`. -/
theorem ReadKeyData_valid (t : Int) (keys : List Int) (g : Globals)
    (ht1 : 1 ≤ t) (ht : t ≤ t_Max) (hk : ∀ k ∈ keys, 0 ≤ k ∧ k / t < t) :
    ReadKeyData (some keys) t (InitArrays g) =
      ⟨some Success, keys.length,
       { InitArrays g with A := ingA t keys (InitArrays g).A
                           Row := ingRow t keys (InitArrays g).Row }⟩ := by
  have hrd := loop_eq t ht1 ht keys 0 (InitArrays g) (fun k h => (hk k h).1)
  rw [accepted_all t keys (fun k h => (hk k h).2), if_pos (fun k h => (hk k h).2),
    zero_add] at hrd
  simp only [ReadKeyData, hrd]

theorem ingRow_init_cnt (t : Int) (keys : List Int) (g : Globals) (i : Int)
    (hi : inBounds i t_Max) :
    (ingRow t keys (InitArrays g).Row i).RowItemCnt
      = keys.countP (fun k => decide (k / t = i)) := by
  simp [ingRow, InitArrays, hi]

/-- C16 (occupancy count equals filled cells).  For `1 ≤ t ≤ 100`, after a
successful ingestion (started after `InitArrays`) of pairwise distinct
non-negative keys: for every row `i < t`, `Row[i].RowItemCnt` (before sorting)
is the number of columns `j < t` with `A[i][j]` occupied, and every occupied
cell `A[i][j]` holds exactly the key `i*t + j`. -/
theorem C16_count_equals_filled (t : Int) (keys : List Int) (g : Globals) (ht1 : 1 ≤ t)
    (ht : t ≤ 100) (hk : ∀ k ∈ keys, 0 ≤ k) (hnd : keys.Nodup)
    (hsucc : (ReadKeyData (some keys) t (InitArrays g)).rc = some Success) :
    ∀ i, 0 ≤ i → i < t →
      ((ReadKeyData (some keys) t (InitArrays g)).g.Row i).RowItemCnt
        = filledInRow t (ReadKeyData (some keys) t (InitArrays g)).g.A i ∧
      ∀ j, 0 ≤ j → j < t →
        (ReadKeyData (some keys) t (InitArrays g)).g.A i j ≠ InvalidKey →
        (ReadKeyData (some keys) t (InitArrays g)).g.A i j = i * t + j := by
  have hall : ∀ k ∈ keys, k / t < t := by
    by_contra hno
    have hrd := loop_eq t ht1 ht keys 0 (InitArrays g) hk
    simp only [ReadKeyData, hrd, if_neg hno] at hsucc
    simp [Success, key_value_ERROR] at hsucc
  have hv := ReadKeyData_valid t keys g ht1 ht (fun k h => ⟨hk k h, hall k h⟩)
  rw [hv]
  intro i hi0 hit
  have hib : inBounds i t_Max := ⟨hi0, by simp only [t_Max]; omega⟩
  simp only
  refine ⟨?_, ?_⟩
  · rw [ingRow_init_cnt t keys g i hib, filledInRow_ing t keys g i ht1 ht hk hi0 hit,
      List.Nodup.dedup hnd]
  · intro j hj0 hjt hocc
    obtain ⟨-, h2, h3⟩ := ingA_init_occupied t keys g i j hib
      ⟨hj0, by simp only [t_Max]; omega⟩ hocc
    have := Int.ediv_add_emod (ingA t keys (InitArrays g).A i j) t
    rw [h2, h3] at this
    rw [← this]
    ring

/-- Witness for C16: keys 5, 1, 7, 8, 2, 0 with `t = 3`; row 2 holds 7 and 8. -/
theorem C16_count_equals_filled_witness :
    ((ReadKeyData (some [5, 1, 7, 8, 2, 0]) 3 (InitArrays zeroGlobals)).g.Row 2).RowItemCnt
      = filledInRow 3 (ReadKeyData (some [5, 1, 7, 8, 2, 0]) 3 (InitArrays zeroGlobals)).g.A 2 ∧
    filledInRow 3 (ReadKeyData (some [5, 1, 7, 8, 2, 0]) 3 (InitArrays zeroGlobals)).g.A 2 = 2 :=
  ⟨(C16_count_equals_filled 3 [5, 1, 7, 8, 2, 0] zeroGlobals (by decide) (by decide)
      (by decide) (by decide) (by decide) 2 (by decide) (by decide)).1, by decide⟩

/-- C17 (duplicate keys over-count).  For `1 ≤ t ≤ 100`: ingesting a key
that is already stored in its cell of the matrix succeeds, leaves `A`
unchanged and still increments both that row's `RowItemCnt` and `*KeyCount`.
Hence after ingesting (started after `InitArrays`) non-negative in-range keys
among which some key is repeated, `*KeyCount` is strictly greater than the
number of filled cells, and the count of the row of every repeated key is
strictly greater than the number of filled cells in that row. -/
theorem C17_duplicates_overcount (t : Int) (keys : List Int) (g : Globals) (ht1 : 1 ≤ t)
    (ht : t ≤ 100) (hk : ∀ k ∈ keys, 0 ≤ k ∧ k / t < t) :
    (∀ (key n : Int) (g1 : Globals), 0 ≤ key → key / t < t →
      g1.A (key / t) (key % t) = key →
      (ReadKeyData.loop t [key] n g1).rc = some Success ∧
      (ReadKeyData.loop t [key] n g1).g.A = g1.A ∧
      ((ReadKeyData.loop t [key] n g1).g.Row (key / t)).RowItemCnt
        = (g1.Row (key / t)).RowItemCnt + 1 ∧
      (ReadKeyData.loop t [key] n g1).KeyCount = n + 1) ∧
    (¬ keys.Nodup →
      (filledCells t (ReadKeyData (some keys) t (InitArrays g)).g.A : Int)
        < (ReadKeyData (some keys) t (InitArrays g)).KeyCount) ∧
    (∀ k, 2 ≤ keys.count k →
      (filledInRow t (ReadKeyData (some keys) t (InitArrays g)).g.A (k / t) : Int)
        < ((ReadKeyData (some keys) t (InitArrays g)).g.Row (k / t)).RowItemCnt) := by
  refine ⟨?_, ?_, ?_⟩
  · intro key n g1 h0 hr hcell
    have hrd := loop_eq t ht1 ht [key] n g1 (by simpa using h0)
    have hacc : accepted t [key] = [key] := accepted_all t [key] (by simpa using hr)
    rw [hacc, if_pos (by simpa using hr)] at hrd
    rw [hrd]
    refine ⟨rfl, ?_, ?_, by simp⟩
    · funext i j
      simp only [ingA, List.mem_singleton, exists_eq_left]
      by_cases h : key / t = i ∧ key % t = j
      · rw [if_pos h]
        obtain ⟨rfl, rfl⟩ := h
        rw [hcell]
        exact Int.ediv_add_emod key t
      · rw [if_neg h]
    · simp [ingRow]
  · intro hnd
    rw [ReadKeyData_valid t keys g ht1 ht hk]
    simp only
    rw [filledCells_ing t keys g ht1 ht hk]
    have := dedup_length_lt keys hnd
    omega
  · intro k hc
    have hkm : k ∈ keys := List.count_pos_iff.mp (by omega)
    have h0 : 0 ≤ k / t := Int.ediv_nonneg (hk k hkm).1 (by omega)
    have hlt : k / t < t := (hk k hkm).2
    rw [ReadKeyData_valid t keys g ht1 ht hk]
    simp only
    rw [filledInRow_ing t keys g (k / t) ht1 ht (fun x h => (hk x h).1) h0 hlt,
      ingRow_init_cnt t keys g (k / t) ⟨h0, by simp only [t_Max]; omega⟩]
    have := countP_dedup_lt (fun x => decide (x / t = k / t)) keys k hc (by simp)
    omega

/-- Witness for C17: the keys 0, 0 with `t = 1` give key count 2 with one
filled cell. -/
theorem C17_duplicates_overcount_witness :
    (ReadKeyData (some [0, 0]) 1 (InitArrays zeroGlobals)).KeyCount = 2 ∧
    filledCells 1 (ReadKeyData (some [0, 0]) 1 (InitArrays zeroGlobals)).g.A = 1 ∧
    (filledCells 1 (ReadKeyData (some [0, 0]) 1 (InitArrays zeroGlobals)).g.A : Int)
      < (ReadKeyData (some [0, 0]) 1 (InitArrays zeroGlobals)).KeyCount :=
  ⟨by decide, by decide,
   (C17_duplicates_overcount 1 [0, 0] zeroGlobals (by decide) (by decide) (by decide)).2.1
     (by decide)⟩

/-! ## The packer: further invariants -/

/-- The row loop of the packer carries any property `I` along that every
commit at a first fit preserves. -/
theorem packRows_inv (t : Int) (g0 : Globals) (ht1 : 1 ≤ t) (ht : t ≤ t_Max)
    (hrows : ∀ p, inBounds p t_Max → inBounds (g0.Row p).RowNumber t_Max)
    (hinj : ∀ p q, inBounds p t_Max → inBounds q t_Max →
      (g0.Row p).RowNumber = (g0.Row q).RowNumber → p = q)
    (I : Int → Globals → Prop)
    (hstep : ∀ ndx g o, inBounds ndx t_Max → PackInv t g0 ndx g → I ndx g →
      0 ≤ o → o < HashTable_Max - t - 1 →
      (∀ o1, 0 ≤ o1 → o1 < o → collides t g (g0.Row ndx).RowNumber o1) →
      ¬ collides t g (g0.Row ndx).RowNumber o →
      I (ndx + 1) (commit t g (g0.Row ndx).RowNumber o)) :
    ∀ (n : Nat) (ndx : Int) (off : Option Int) (g : Globals),
      0 ≤ ndx → ndx ≤ t_Max → ndx + n = t_Max + 1 → PackInv t g0 ndx g → I ndx g →
      (∀ p, 0 ≤ p → p < ndx → (g0.Row p).RowItemCnt > 0) →
      match packRows t n ndx off g with
      | .completed _ g1 =>
        ∃ m, 0 ≤ m ∧ m < t_Max ∧ PackInv t g0 m g1 ∧ I m g1 ∧
          (g0.Row m).RowItemCnt ≤ 0 ∧ ∀ p, 0 ≤ p → p < m → (g0.Row p).RowItemCnt > 0
      | .failed row g1 =>
        ∃ m, 0 ≤ m ∧ m < t_Max ∧ PackInv t g0 m g1 ∧ I m g1 ∧
          row = (g0.Row m).RowNumber ∧
          (∀ p, 0 ≤ p → p ≤ m → (g0.Row p).RowItemCnt > 0) ∧
          ∀ o, 0 ≤ o → o < HashTable_Max - t - 1 → collides t g1 row o
      | .undefined g1 =>
        PackInv t g0 t_Max g1 ∧ I t_Max g1 ∧
          ∀ p, 0 ≤ p → p < t_Max → (g0.Row p).RowItemCnt > 0 := by
  intro n
  induction n with
  | zero =>
    intro ndx off g h0 h1 hn
    push_cast at hn
    omega
  | succ n ih =>
    intro ndx off g h0 h1 hn inv hI hpos
    push_cast at hn
    have hR := inv.sameRow
    by_cases hlt : ndx < t_Max
    · have hb : inBounds ndx t_Max := ⟨h0, hlt⟩
      by_cases hcnt : (g0.Row ndx).RowItemCnt > 0
      · have hpos1 : ∀ p, 0 ≤ p → p < ndx + 1 → (g0.Row p).RowItemCnt > 0 := by
          intro p hp0 hp1
          by_cases hp : p = ndx
          · subst hp; exact hcnt
          · exact hpos p hp0 (by omega)
        obtain ⟨o, o1, o2, o3, o4⟩ :=
          placeRow_spec t (g0.Row ndx).RowNumber g ht1 ht (hrows ndx hb)
        rcases o4 with ⟨o5, o6⟩ | ⟨o5, o6, o7⟩
        · have hval : packRows t (n + 1) ndx off g = .failed (g0.Row ndx).RowNumber g := by
            rw [packRows]
            simp only [hb, if_true, hR, hcnt, o6, o5]
          rw [hval]
          refine ⟨ndx, h0, hlt, inv, hI, rfl, fun p hp0 hp1 => hpos1 p hp0 (by omega), ?_⟩
          intro o9 h90 h91
          exact o3 o9 h90 (by omega)
        · have hne : ¬ o = HashTable_Max - t - 1 := by omega
          have hval : packRows t (n + 1) ndx off g =
              packRows t n (ndx + 1) (some o) (commit t g (g0.Row ndx).RowNumber o) := by
            rw [packRows]
            simp only [hb, if_true, hR, hcnt, o7, hne, if_false]
          rw [hval]
          exact ih (ndx + 1) (some o) _ (by omega) (by omega) (by omega)
            (PackInv_step t g0 g ndx o hinj hb o1 o5 o6 inv)
            (hstep ndx g o hb inv hI o1 o5 o3 o6) hpos1
      · have hval : packRows t (n + 1) ndx off g = .completed off g := by
          rw [packRows]
          simp only [hb, if_true, hR, hcnt, if_false]
        rw [hval]
        exact ⟨ndx, h0, hlt, inv, hI, by omega, hpos⟩
    · have hb : ¬ inBounds ndx t_Max := fun h => hlt h.2
      have hval : packRows t (n + 1) ndx off g = .undefined g := by
        rw [packRows]
        simp only [hb, if_false]
      rw [hval]
      have he : ndx = t_Max := by omega
      subst he
      exact ⟨inv, hI, hpos⟩

theorem FirstFit_step (t : Int) (g0 g : Globals) (ndx o : Int)
    (hC0 : ∀ c, inBounds c HashTable_Max → g0.C c = InvalidKey)
    (hinj : ∀ p q, inBounds p t_Max → inBounds q t_Max →
      (g0.Row p).RowNumber = (g0.Row q).RowNumber → p = q)
    (hndx : inBounds ndx t_Max) (inv : PackInv t g0 ndx g) (hff : FirstFit t g0 ndx g)
    (ho : o < HashTable_Max - t - 1)
    (hmin : ∀ o1, 0 ≤ o1 → o1 < o → collides t g (g0.Row ndx).RowNumber o1) :
    FirstFit t g0 (ndx + 1) (commit t g (g0.Row ndx).RowNumber o) := by
  have hne : ∀ p, 0 ≤ p → p < ndx → (g0.Row p).RowNumber ≠ (g0.Row ndx).RowNumber := by
    intro p h1 h2 he
    have := hinj p ndx ⟨h1, by have := hndx.2; omega⟩ hndx he
    omega
  have hr : ∀ p, 0 ≤ p → p < ndx →
      (commit t g (g0.Row ndx).RowNumber o).r (g0.Row p).RowNumber
        = g.r (g0.Row p).RowNumber := by
    intro p h1 h2
    simp [commit, store, hne p h1 h2]
  intro p hp0 hp1 o1 ho10 ho11
  by_cases hp : p = ndx
  · subst hp
    have hrp : (commit t g (g0.Row p).RowNumber o).r (g0.Row p).RowNumber = o := by
      simp [commit, store]
    rw [hrp] at ho11
    obtain ⟨k, k0, k1, kC, kA⟩ := hmin o1 ho10 ho11
    have hne0 : g.C (o1 + k) ≠ g0.C (o1 + k) := by
      rw [hC0 (o1 + k) ⟨by omega, by omega⟩]
      exact kC
    obtain ⟨q, q0, q1, k2, k20, k21, k2A, k2e⟩ := inv.written (o1 + k) hne0
    refine ⟨k, k0, k1, by rw [← inv.sameA]; exact kA, q, q0, q1, k2, k20, k21, k2A, ?_⟩
    rw [hr q q0 q1, ← k2e]
  · have hlt : p < ndx := by omega
    rw [hr p hp0 hlt] at ho11
    obtain ⟨k, k0, k1, kA, q, q0, q1, k2, k20, k21, k2A, k2e⟩ := hff p hp0 hlt o1 ho10 ho11
    refine ⟨k, k0, k1, kA, q, q0, q1, k2, k20, k21, k2A, ?_⟩
    rw [hr q q0 (by omega), k2e]

theorem packStart_C (t : Int) (keys : List Int) (σ : Equiv.Perm Int) (c : Int)
    (hc : inBounds c HashTable_Max) : (packStart t keys σ).C c = InvalidKey := by
  simp [packStart, InitArrays, hc]

/-- How a run on in-range keys can end, with the state of the packer in each
case: the packer placed the rows at the sorted positions `0 .. m-1` and then
found position `m` empty (finished), or could not place position `m`
(`fit_exit`), or went through all `t_Max` positions (undefined). -/
theorem main_cases (t : Int) (keys : List Int) (ht1 : 1 ≤ t) (ht : t ≤ t_Max)
    (hk : ∀ k ∈ keys, 0 ≤ k ∧ k / t < t) :
    ∃ σ : Equiv.Perm Int,
      (∀ p, ¬ (0 ≤ p ∧ p < t) → σ p = p) ∧
      (∀ p q, 0 ≤ p → p < q → q < t →
        ((packStart t keys σ).Row q).RowItemCnt ≤ ((packStart t keys σ).Row p).RowItemCnt) ∧
      (main t (some keys)).NumKeys = some (keys.length : Int) ∧
      (((main t (some keys)).status = Status.finished ∧
          ∃ m off, 0 ≤ m ∧ m < t_Max ∧
            PackInv t (packStart t keys σ) m (main t (some keys)).g ∧
            FirstFit t (packStart t keys σ) m (main t (some keys)).g ∧
            ((packStart t keys σ).Row m).RowItemCnt ≤ 0 ∧
            (∀ p, 0 ≤ p → p < m → ((packStart t keys σ).Row p).RowItemCnt > 0) ∧
            (main t (some keys)).offset =
              lastEntry (main t (some keys)).g.C HashTable_Max.toNat 0 off ∧
            (m = 0 → off = none)) ∨
       (∃ m, (main t (some keys)).status
            = Status.fit_exit ((packStart t keys σ).Row m).RowNumber ∧
          0 ≤ m ∧ m < t_Max ∧
          PackInv t (packStart t keys σ) m (main t (some keys)).g ∧
          (∀ p, 0 ≤ p → p ≤ m → ((packStart t keys σ).Row p).RowItemCnt > 0) ∧
          ∀ o, 0 ≤ o → o < HashTable_Max - t - 1 →
            collides t (main t (some keys)).g ((packStart t keys σ).Row m).RowNumber o) ∨
       ((main t (some keys)).status = Status.undefined ∧
          PackInv t (packStart t keys σ) t_Max (main t (some keys)).g ∧
          ∀ p, 0 ≤ p → p < t_Max → ((packStart t keys σ).Row p).RowItemCnt > 0)) := by
  obtain ⟨σ, s1, s2, s3⟩ := main_unfold t keys ht1 ht hk
  have hσ := perm_inBounds t ht σ s1
  have hrows : ∀ p, inBounds p t_Max → inBounds ((packStart t keys σ).Row p).RowNumber t_Max := by
    intro p hp
    rw [packStart_Row t keys σ p (hσ p hp)]
    exact hσ p hp
  have hinj : ∀ p q, inBounds p t_Max → inBounds q t_Max →
      ((packStart t keys σ).Row p).RowNumber = ((packStart t keys σ).Row q).RowNumber →
      p = q := by
    intro p q hp hq
    rw [packStart_Row t keys σ p (hσ p hp), packStart_Row t keys σ q (hσ q hq)]
    exact fun h => σ.injective h
  have spec := packRows_inv t (packStart t keys σ) ht1 ht hrows hinj
    (fun ndx g => FirstFit t (packStart t keys σ) ndx g)
    (fun ndx g o hndx inv hI o0 o1 hmin _ =>
      FirstFit_step t (packStart t keys σ) g ndx o (packStart_C t keys σ) hinj hndx inv hI
        o1 hmin)
    (t_Max + 1).toNat 0 none (packStart t keys σ) (le_refl _) (by simp [t_Max])
    (by simp [t_Max]) (PackInv_init t _) (fun p h1 h2 => by omega)
    (fun p h1 h2 => by omega)
  -- the offset handed on by a packer that stops at position 0
  have hoff0 : ∀ off g2, packRows t (t_Max + 1).toNat 0 none (packStart t keys σ)
      = .completed off g2 → ((packStart t keys σ).Row 0).RowItemCnt ≤ 0 → off = none := by
    intro off g2 hp hz
    have h101 : (t_Max + 1).toNat = 100 + 1 := by simp [t_Max]
    rw [h101, packRows] at hp
    have hb : inBounds 0 t_Max := by simp [inBounds, t_Max]
    have hz2 : ¬ ((packStart t keys σ).Row 0).RowItemCnt > 0 := by omega
    simp only [hb, if_true, hz2, if_false] at hp
    injection hp with h1 h2
    exact h1.symm
  refine ⟨σ, s1, s2, ?_, ?_⟩
  · rw [s3]
    unfold packAndReport
    cases packRows t (t_Max + 1).toNat 0 none (packStart t keys σ) <;> rfl
  · rw [s3]
    unfold packAndReport
    cases hp : packRows t (t_Max + 1).toNat 0 none (packStart t keys σ) with
    | completed off g2 =>
      rw [hp] at spec
      obtain ⟨m, m1, m2, m3, m4, m5, m6⟩ := spec
      dsimp only
      refine Or.inl ⟨rfl, m, off, m1, m2, m3, m4, m5, m6, rfl, ?_⟩
      intro hm0
      subst hm0
      exact hoff0 off g2 hp m5
    | failed row g2 =>
      rw [hp] at spec
      obtain ⟨m, m1, m2, m3, -, m5, m6, m7⟩ := spec
      subst m5
      dsimp only
      exact Or.inr (Or.inl ⟨m, rfl, m1, m2, m3, m6, m7⟩)
    | undefined g2 =>
      rw [hp] at spec
      obtain ⟨m3, -, m6⟩ := spec
      dsimp only
      exact Or.inr (Or.inr ⟨rfl, m3, m6⟩)

/-- Each key's row sits at one of the positions the packer went through. -/
theorem key_position (t : Int) (keys : List Int) (σ : Equiv.Perm Int) (m : Int)
    (ht1 : 1 ≤ t) (ht : t ≤ t_Max) (hk : ∀ k ∈ keys, 0 ≤ k ∧ k / t < t)
    (s1 : ∀ p, ¬ (0 ≤ p ∧ p < t) → σ p = p)
    (s2 : ∀ p q, 0 ≤ p → p < q → q < t →
      ((packStart t keys σ).Row q).RowItemCnt ≤ ((packStart t keys σ).Row p).RowItemCnt)
    (m1 : 0 ≤ m) (m4 : ((packStart t keys σ).Row m).RowItemCnt ≤ 0) :
    ∀ k ∈ keys, ∃ p, 0 ≤ p ∧ p < m ∧ p < t ∧ σ p = k / t ∧
      (packStart t keys σ).Row p
        = ⟨k / t, keys.countP (fun x => decide (x / t = k / t))⟩ := by
  intro k hkm
  have h0 : 0 ≤ k / t := Int.ediv_nonneg (hk k hkm).1 (by omega)
  have hlt : k / t < t := (hk k hkm).2
  have hp := perm_mem_range σ.symm 0 t (perm_symm_fix t σ s1) (k / t) ⟨h0, (hk k hkm).2⟩
  have hσp : σ (σ.symm (k / t)) = k / t := Equiv.apply_symm_apply σ _
  have hRow := packStart_Row t keys σ (σ.symm (k / t)) (by rw [hσp]; exact ⟨h0, by omega⟩)
  rw [hσp] at hRow
  have hcnt := countP_pos_of_mem t keys k hkm
  refine ⟨σ.symm (k / t), hp.1, ?_, hp.2, hσp, hRow⟩
  by_contra hge
  by_cases he : m = σ.symm (k / t)
  · rw [he, hRow] at m4
    simp only at m4
    omega
  · have := s2 m (σ.symm (k / t)) m1 (by omega) hp.2
    rw [hRow] at this
    simp only at this
    omega

/-- C13 (first-fit minimality).  In a finished run with `1 ≤ t ≤ 100` on
non-negative in-range keys, the row `key / t` of every key sits at a position
`p` of the sorted descriptor array that the row loop went through, and its
displacement `r[key / t]` is the smallest collision-free offset: for every
offset `o` with `0 ≤ o < r[key / t]` there is a column `k < t` with
`A[key / t][k]` occupied whose cell `C[o + k]` belongs to a row placed before,
i.e. it is the slot of a key `key2` whose row sits at an earlier position
`q < p` (and the final table holds `key2` there). -/
theorem C13_first_fit (t : Int) (keys : List Int) (ht1 : 1 ≤ t) (ht : t ≤ 100)
    (hk : ∀ k ∈ keys, 0 ≤ k ∧ k / t < t)
    (hfin : (main t (some keys)).status = Status.finished) :
    ∀ key ∈ keys, ∃ p, 0 ≤ p ∧
      ((main t (some keys)).g.Row p).RowNumber = key / t ∧
      (∀ q, 0 ≤ q → q ≤ p → ((main t (some keys)).g.Row q).RowItemCnt > 0) ∧
      ∀ o, 0 ≤ o → o < (main t (some keys)).g.r (key / t) →
        ∃ k, 0 ≤ k ∧ k < t ∧ (main t (some keys)).g.A (key / t) k ≠ InvalidKey ∧
          ∃ key2 ∈ keys, ∃ q, 0 ≤ q ∧ q < p ∧
            ((main t (some keys)).g.Row q).RowNumber = key2 / t ∧
            (main t (some keys)).g.r (key2 / t) + key2 % t = o + k ∧
            (main t (some keys)).g.C (o + k) = key2 := by
  obtain ⟨σ, s1, s2, -, hcase⟩ := main_cases t keys ht1 ht hk
  obtain ⟨f1, -, -⟩ := main_facts t keys ht1 ht hk hfin
  have hσ := perm_inBounds t ht σ s1
  rcases hcase with ⟨-, m, off, m1, m2, inv, ff, m4, m5, -, -⟩ | ⟨m, hs, -⟩ | ⟨hs, -⟩
  · intro key hkey
    obtain ⟨p, p0, p1, -, hσp, hRow⟩ := key_position t keys σ m ht1 ht hk s1 s2 m1 m4 key hkey
    refine ⟨p, p0, ?_, ?_, ?_⟩
    · rw [inv.sameRow, hRow]
    · intro q q0 q1
      rw [inv.sameRow]
      exact m5 q q0 (by omega)
    · intro o o0 o1
      have hff := ff p p0 p1 o o0
      rw [hRow] at hff
      obtain ⟨k, k0, k1, kA, q, q0, q1, k2, k20, k21, k2A, k2e⟩ := hff o1
      have hqb : inBounds q t_Max := ⟨q0, by omega⟩
      have hRq := packStart_Row t keys σ q (hσ q hqb)
      rw [hRq] at k2A k2e
      simp only at k2A k2e
      obtain ⟨key2, e1, e2, e3⟩ :=
        (packStart_A t keys σ (σ q) k2 (fun x h => (hk x h).1) (hσ q hqb)
          ⟨k20, by simp only [t_Max]; omega⟩).mp k2A
      have hslot : (main t (some keys)).g.r (key2 / t) + key2 % t = o + k := by
        rw [e2, e3]; exact k2e
      refine ⟨k, k0, k1, by rw [inv.sameA]; exact kA, key2, e1, q, q0, q1, ?_, hslot, ?_⟩
      · rw [inv.sameRow, hRq, e2]
      · rw [← hslot]
        exact (f1 key2 e1).2.2
  · rw [hs] at hfin
    simp at hfin
  · rw [hs] at hfin
    simp at hfin

/-- Witness for C13: keys 5, 1, 7, 8, 2, 0 with `t = 3`; row 1 (key 5) is placed
last, at offset 3. -/
theorem C13_first_fit_witness :
    (main 3 (some [5, 1, 7, 8, 2, 0])).status = Status.finished ∧
    (main 3 (some [5, 1, 7, 8, 2, 0])).g.r (5 / 3) = 3 ∧
    ∃ p, 0 ≤ p ∧
      ((main 3 (some [5, 1, 7, 8, 2, 0])).g.Row p).RowNumber = 5 / 3 ∧
      (∀ q, 0 ≤ q → q ≤ p →
        ((main 3 (some [5, 1, 7, 8, 2, 0])).g.Row q).RowItemCnt > 0) ∧
      ∀ o, 0 ≤ o → o < (main 3 (some [5, 1, 7, 8, 2, 0])).g.r (5 / 3) →
        ∃ k, 0 ≤ k ∧ k < 3 ∧
          (main 3 (some [5, 1, 7, 8, 2, 0])).g.A (5 / 3) k ≠ InvalidKey ∧
          ∃ key2 ∈ [5, 1, 7, 8, 2, 0], ∃ q, 0 ≤ q ∧ q < p ∧
            ((main 3 (some [5, 1, 7, 8, 2, 0])).g.Row q).RowNumber = key2 / 3 ∧
            (main 3 (some [5, 1, 7, 8, 2, 0])).g.r (key2 / 3) + key2 % 3 = o + k ∧
            (main 3 (some [5, 1, 7, 8, 2, 0])).g.C (o + k) = key2 :=
  ⟨by decide, by decide,
   C13_first_fit 3 [5, 1, 7, 8, 2, 0] (by decide) (by decide) (by decide) (by decide) 5
     (by decide)⟩

/-- C11 (single-key scenario, generalised).  For `1 ≤ t ≤ 100` and a single
key `k` with `0 ≤ k < t*t`, the run finishes with `r[k / t] = 0`,
`C[k % t] = k`, every other table cell empty, key count 1 and reported size
`(k % t) + 1`. -/
theorem C11_single_key (t k : Int) (ht1 : 1 ≤ t) (ht : t ≤ 100) (hk0 : 0 ≤ k)
    (hk1 : k < t * t) :
    (main t (some [k])).status = Status.finished ∧
    (main t (some [k])).g.r (k / t) = 0 ∧
    (main t (some [k])).g.C (k % t) = k ∧
    (∀ c, 0 ≤ c → c < HashTable_Max → c ≠ k % t →
      (main t (some [k])).g.C c = InvalidKey) ∧
    (main t (some [k])).NumKeys = some 1 ∧
    (main t (some [k])).offset = some (k % t + 1) := by
  have hr : k / t < t := (Int.ediv_lt_iff_lt_mul (by omega)).mpr hk1
  have hk : ∀ x ∈ [k], 0 ≤ x ∧ x / t < t := by
    intro x hx
    rw [List.mem_singleton] at hx
    subst hx
    exact ⟨hk0, hr⟩
  have h100 : t_Max = 100 := rfl
  have h1000 : HashTable_Max = 1000 := rfl
  obtain ⟨σ, s1, s2, hnum, hcase⟩ := main_cases t [k] ht1 ht hk
  have hσ := perm_inBounds t ht σ s1
  -- only the position of row `k / t` has a positive count
  have hcnt : ∀ p, inBounds p t_Max → ((packStart t [k] σ).Row p).RowItemCnt > 0 →
      σ p = k / t := by
    intro p hp hc
    rw [packStart_Row t [k] σ p (hσ p hp)] at hc
    simp only [List.countP_cons, List.countP_nil, decide_eq_true_eq] at hc
    by_contra hne
    rw [if_neg (fun h => hne h.symm)] at hc
    simp at hc
  have hno2 : ¬ (((packStart t [k] σ).Row 0).RowItemCnt > 0 ∧
      ((packStart t [k] σ).Row 1).RowItemCnt > 0) := by
    rintro ⟨a, b⟩
    have e0 := hcnt 0 ⟨le_refl _, by omega⟩ a
    have e1 := hcnt 1 ⟨by omega, by omega⟩ b
    have := σ.injective (e0.trans e1.symm)
    omega
  have hfin : (main t (some [k])).status = Status.finished := by
    rcases hcase with ⟨h, -⟩ | ⟨m, -, m0, m1, inv, mpos, mcol⟩ | ⟨-, -, mpos⟩
    · exact h
    · exfalso
      have hm : m = 0 := by
        by_contra hne
        exact hno2 ⟨mpos 0 (le_refl _) m0, mpos 1 (by omega) (by omega)⟩
      subst hm
      obtain ⟨kk, kk0, kk1, kC, -⟩ := mcol 0 (le_refl _) (by omega)
      apply kC
      rw [zero_add]
      by_contra hne
      have hw : (main t (some [k])).g.C kk ≠ (packStart t [k] σ).C kk := by
        rw [packStart_C t [k] σ kk ⟨kk0, by omega⟩]
        exact hne
      obtain ⟨p, p0, p1, -⟩ := inv.written kk hw
      omega
    · exfalso
      exact hno2 ⟨mpos 0 (le_refl _) (by omega), mpos 1 (by omega) (by omega)⟩
  obtain ⟨f1, -, f3⟩ := main_facts t [k] ht1 ht hk hfin
  obtain ⟨r0, r1, hC⟩ := f1 k (List.mem_singleton.mpr rfl)
  have hrz : (main t (some [k])).g.r (k / t) = 0 := by
    rcases hcase with ⟨-, m, off, m0, m1, inv, ff, m4, m5, -, -⟩ | ⟨m, hs, -⟩ | ⟨hs, -⟩
    · obtain ⟨p, p0, p1, -, -, hRow⟩ := key_position t [k] σ m ht1 ht hk s1 s2 m0 m4 k
        (List.mem_singleton.mpr rfl)
      have hm : m ≤ 1 := by
        by_contra hgt
        exact hno2 ⟨m5 0 (le_refl _) (by omega), m5 1 (by omega) (by omega)⟩
      by_contra hne
      have hff := ff p p0 p1 0 (le_refl _)
      rw [hRow] at hff
      obtain ⟨-, -, -, -, q, q0, q1, -⟩ := hff (by simp only; omega)
      omega
    · rw [hs] at hfin
      simp at hfin
    · rw [hs] at hfin
      simp at hfin
  rw [hrz, zero_add] at hC
  have hother : ∀ c, 0 ≤ c → c < HashTable_Max → (main t (some [k])).g.C c ≠ InvalidKey →
      c = k % t := by
    intro c c0 c1 hocc
    obtain ⟨x, hx, hc⟩ := f3 c ⟨c0, c1⟩ hocc
    rw [List.mem_singleton] at hx
    subst hx
    rw [hc, hrz, zero_add]
  refine ⟨hfin, hrz, hC, ?_, ?_, ?_⟩
  · intro c c0 c1 hne
    by_contra hocc
    exact hne (hother c c0 c1 hocc)
  · rw [hnum]
    simp
  · obtain ⟨e, e1, e2, e3, e4, -⟩ := main_extent t [k] ht1 ht hk (by simp) hfin
    have := hother (e - 1) (by omega) (by omega) e4
    rw [e1]
    congr 1
    omega

/-- Witness for C11: key 5 with `t = 3` gives row 1, column 2, `r[1] = 0`, the
table `[empty, empty, 5]`, key count 1 and reported size 3. -/
theorem C11_single_key_witness :
    (main 3 (some [5])).status = Status.finished ∧
    (main 3 (some [5])).g.r 1 = 0 ∧
    (main 3 (some [5])).g.C 2 = 5 ∧
    (main 3 (some [5])).g.C 0 = InvalidKey ∧
    (main 3 (some [5])).g.C 1 = InvalidKey ∧
    (main 3 (some [5])).NumKeys = some 1 ∧
    (main 3 (some [5])).offset = some 3 := by
  obtain ⟨h1, h2, h3, h4, h5, h6⟩ :=
    C11_single_key 3 5 (by decide) (by decide) (by decide) (by decide)
  exact ⟨h1, h2, h3, h4 0 (by decide) (by decide) (by decide),
    h4 1 (by decide) (by decide) (by decide), h5, h6⟩

/-- Outside the bounds of `r` the model keeps the start value of the storage;
a finished run does not touch it. -/
theorem main_r_outside (t : Int) (keys : List Int) (ht1 : 1 ≤ t) (ht : t ≤ t_Max)
    (hk : ∀ k ∈ keys, 0 ≤ k ∧ k / t < t)
    (hfin : (main t (some keys)).status = Status.finished) (i : Int)
    (hi : ¬ inBounds i t_Max) : (main t (some keys)).g.r i = 0 := by
  obtain ⟨σ, m, off, s1, -, m0, m1, inv, -, -, -, -⟩ := main_finished t keys ht1 ht hk hfin
  have hσ := perm_inBounds t ht σ s1
  have hun := inv.untouched i (by
    intro p p0 p1 he
    have hb : inBounds p t_Max := ⟨p0, by omega⟩
    rw [packStart_Row t keys σ p (hσ p hb)] at he
    simp only at he
    rw [← he] at hi
    exact hi (hσ p hb))
  rw [hun]
  simp [packStart, InitArrays, hi, zeroGlobals]

/-- C18, amended (the table holds nothing but the keys).  After a finished run
with `1 ≤ t ≤ 100` on non-negative in-range keys: every occupied table cell
`C[c]` holds a key `k` of the file whose slot `r[k / t] + k % t` is `c`; the
number of occupied table cells is the number of distinct keys; and for a
non-negative query `q`, a lookup `C[r[q / t] + q % t] = q` with
`r[q / t] ≥ 0` succeeds only if `q` is a key of the file.  The query has to be
non-negative: empty cells hold `InvalidKey = -1`, which a lookup of `-1`
finds. -/
theorem C18_table_only_keys (t : Int) (keys : List Int) (ht1 : 1 ≤ t) (ht : t ≤ 100)
    (hk : ∀ k ∈ keys, 0 ≤ k ∧ k / t < t)
    (hfin : (main t (some keys)).status = Status.finished) :
    (∀ c, 0 ≤ c → c < HashTable_Max → (main t (some keys)).g.C c ≠ InvalidKey →
      ∃ k ∈ keys, (main t (some keys)).g.C c = k ∧
        (main t (some keys)).g.r (k / t) + k % t = c) ∧
    occupiedCells (main t (some keys)).g.C = keys.dedup.length ∧
    (∀ q, 0 ≤ q → 0 ≤ (main t (some keys)).g.r (q / t) →
      (main t (some keys)).g.C ((main t (some keys)).g.r (q / t) + q % t) = q →
      q ∈ keys) := by
  obtain ⟨f1, f2, f3⟩ := main_facts t keys ht1 ht hk hfin
  have h100 : t_Max = 100 := rfl
  have h1000 : HashTable_Max = 1000 := rfl
  have hcell : ∀ c, 0 ≤ c → c < HashTable_Max → (main t (some keys)).g.C c ≠ InvalidKey →
      ∃ k ∈ keys, (main t (some keys)).g.C c = k ∧
        (main t (some keys)).g.r (k / t) + k % t = c := by
    intro c c0 c1 hocc
    obtain ⟨k, hkm, hc⟩ := f3 c ⟨c0, c1⟩ hocc
    refine ⟨k, hkm, ?_, hc.symm⟩
    rw [hc]
    exact (f1 k hkm).2.2
  have hslot : ∀ k ∈ keys, 0 ≤ (main t (some keys)).g.r (k / t) + k % t ∧
      (main t (some keys)).g.r (k / t) + k % t < HashTable_Max ∧
      (main t (some keys)).g.C ((main t (some keys)).g.r (k / t) + k % t) ≠ InvalidKey := by
    intro k hkm
    obtain ⟨r0, r1, hC⟩ := f1 k hkm
    have h1 : 0 ≤ k % t := Int.emod_nonneg k (by omega)
    have h2 : k % t < t := Int.emod_lt_of_pos k (by omega)
    have hk0 := (hk k hkm).1
    refine ⟨by omega, by omega, ?_⟩
    rw [hC]
    simp only [InvalidKey]
    omega
  refine ⟨hcell, ?_, ?_⟩
  · unfold occupiedCells
    rw [List.countP_eq_length_filter]
    have hn1 : ((upTo HashTable_Max).filter
        (fun c => decide ((main t (some keys)).g.C c ≠ InvalidKey))).Nodup :=
      (nodup_upTo _).filter _
    have hn2 : (keys.dedup.map
        (fun k => (main t (some keys)).g.r (k / t) + k % t)).Nodup := by
      apply List.Nodup.map_on _ (List.nodup_dedup keys)
      intro x hx y hy hxy
      rw [List.mem_dedup] at hx hy
      have ex := (f1 x hx).2.2
      have ey := (f1 y hy).2.2
      simp only at hxy
      rw [hxy, ey] at ex
      exact ex.symm
    have hperm : ((upTo HashTable_Max).filter
        (fun c => decide ((main t (some keys)).g.C c ≠ InvalidKey))).Perm
        (keys.dedup.map (fun k => (main t (some keys)).g.r (k / t) + k % t)) := by
      rw [List.perm_ext_iff_of_nodup hn1 hn2]
      intro c
      simp only [List.mem_filter, mem_upTo, decide_eq_true_eq, List.mem_map, List.mem_dedup]
      constructor
      · rintro ⟨⟨c0, c1⟩, hocc⟩
        obtain ⟨k, hkm, -, hc⟩ := hcell c c0 c1 hocc
        exact ⟨k, hkm, hc⟩
      · rintro ⟨k, hkm, rfl⟩
        obtain ⟨a, b, c⟩ := hslot k hkm
        exact ⟨⟨a, b⟩, c⟩
    have := hperm.length_eq
    rw [List.length_map] at this
    exact this
  · intro q q0 hr hq
    have h1 : 0 ≤ q % t := Int.emod_nonneg q (by omega)
    have h2 : q % t < t := Int.emod_lt_of_pos q (by omega)
    have hocc : (main t (some keys)).g.C ((main t (some keys)).g.r (q / t) + q % t)
        ≠ InvalidKey := by
      rw [hq]; simp only [InvalidKey]; omega
    have hbound : (main t (some keys)).g.r (q / t) + q % t < HashTable_Max := by
      by_cases hb : inBounds (q / t) t_Max
      · by_cases hex : ∃ k ∈ keys, k / t = q / t
        · obtain ⟨k, hkm, he⟩ := hex
          have := (f1 k hkm).2.1
          rw [he] at this
          omega
        · have := f2 (q / t) hb hex
          omega
      · have := main_r_outside t keys ht1 ht hk hfin (q / t) hb
        omega
    obtain ⟨k, hkm, hCk, -⟩ := hcell _ (by omega) hbound hocc
    rw [hq] at hCk
    rw [hCk]
    exact hkm

/-- Witness for C18: keys 5, 5, 7 with `t = 3` occupy two cells, and the cell
of key 7 leads back to key 7. -/
theorem C18_table_only_keys_witness :
    (main 3 (some [5, 5, 7])).status = Status.finished ∧
    occupiedCells (main 3 (some [5, 5, 7])).g.C = 2 ∧
    (7 : Int) ∈ [5, 5, 7] := by
  have h := C18_table_only_keys 3 [5, 5, 7] (by decide) (by decide) (by decide) (by decide)
  exact ⟨by decide, h.2.1.trans (by decide), h.2.2 7 (by decide) (by decide) (by decide)⟩

/-- C18, the lookup clause as stated for every integer `q`, fails at
`q = InvalidKey = -1`: keys 4, 5, 2 with `t = 3` finish with `r[0] = 1` and an
empty cell `C[0]`; under C arithmetic `-1 / 3 = 0` and `-1 % 3 = -1`, so the
lookup reads `C[r[0] - 1] = C[0] = -1 = q` with `r[0] ≥ 0`, yet `-1` is not a key
of the file. -/
theorem C18_counterexample :
    (1 : Int) ≤ 3 ∧ (3 : Int) ≤ 100 ∧ (∀ k ∈ [(4 : Int), 5, 2], 0 ≤ k ∧ k / 3 < 3) ∧
    (main 3 (some [4, 5, 2])).status = Status.finished ∧
    0 ≤ (main 3 (some [4, 5, 2])).g.r (Int.tdiv (-1) 3) ∧
    (main 3 (some [4, 5, 2])).g.C
      ((main 3 (some [4, 5, 2])).g.r (Int.tdiv (-1) 3) + Int.tmod (-1) 3) = -1 ∧
    (-1 : Int) ∉ [(4 : Int), 5, 2] := by
  decide

/-- The insertion loop after its first `n` passes, started at column `k0`: the
occupied cells of the columns `k0 .. k0+n-1` have been copied. -/
theorem insertRow_prefix (t : Int) (row o : Int) (ht : t ≤ t_Max)
    (hrow : inBounds row t_Max) (ho0 : 0 ≤ o) (ho : o + t ≤ HashTable_Max) :
    ∀ (n : Nat) (k0 : Int) (g : Globals), 0 ≤ k0 → k0 + n ≤ t →
      insertRow t row o n k0 g = some { g with
        C := fun c =>
          if k0 ≤ c - o ∧ c - o < k0 + n ∧ g.A row (c - o) ≠ InvalidKey then g.A row (c - o)
          else g.C c } := by
  intro n
  induction n with
  | zero =>
    intro k0 g hk0 hn
    have : (fun c => if k0 ≤ c - o ∧ c - o < k0 + ((0 : Nat) : Int) ∧
        g.A row (c - o) ≠ InvalidKey then g.A row (c - o) else g.C c) = g.C := by
      funext c
      have : ¬ (k0 ≤ c - o ∧ c - o < k0 + ((0 : Nat) : Int) ∧ g.A row (c - o) ≠ InvalidKey) :=
        fun h => by
          have := h.2.1
          push_cast at this
          omega
      rw [if_neg this]
    rw [this]
    simp [insertRow]
  | succ n ih =>
    intro k0 g hk0 hn
    push_cast at hn
    have hkt : k0 < t := by omega
    have hbC : inBounds (o + k0) HashTable_Max := by
      simp only [inBounds]; omega
    have hbA : inBounds row t_Max ∧ inBounds k0 t_Max := by
      refine ⟨hrow, ?_⟩
      simp only [inBounds]; omega
    rw [insertRow]
    simp only [hkt, if_true, hbC, hbA, and_self]
    by_cases hA : g.A row k0 ≠ InvalidKey
    · rw [if_pos hA, ih (k0 + 1) _ (by omega) (by omega)]
      congr 2
      funext c
      simp only [store]
      push_cast
      by_cases hc : c - o = k0
      · have hc2 : c = o + k0 := by omega
        have h1 : ¬ (k0 + 1 ≤ c - o ∧ c - o < k0 + 1 + n ∧ g.A row (c - o) ≠ InvalidKey) :=
          fun h => by omega
        have h2 : k0 ≤ c - o ∧ c - o < k0 + (n + 1) ∧ g.A row (c - o) ≠ InvalidKey :=
          ⟨by omega, by omega, by rw [hc]; exact hA⟩
        rw [if_neg h1, if_pos h2, hc]
        simp [hc2]
      · have hc2 : ¬ c = o + k0 := by omega
        have h1 : (k0 + 1 ≤ c - o ∧ c - o < k0 + 1 + n ∧ g.A row (c - o) ≠ InvalidKey) ↔
            (k0 ≤ c - o ∧ c - o < k0 + (n + 1) ∧ g.A row (c - o) ≠ InvalidKey) :=
          ⟨fun h => ⟨by omega, by omega, h.2.2⟩, fun h => ⟨by omega, by omega, h.2.2⟩⟩
        simp only [h1, hc2, if_false]
    · rw [if_neg hA, ih (k0 + 1) g (by omega) (by omega)]
      congr 2
      funext c
      push_cast
      have h1 : (k0 + 1 ≤ c - o ∧ c - o < k0 + 1 + n ∧ g.A row (c - o) ≠ InvalidKey) ↔
          (k0 ≤ c - o ∧ c - o < k0 + (n + 1) ∧ g.A row (c - o) ≠ InvalidKey) := by
        constructor
        · exact fun h => ⟨by omega, by omega, h.2.2⟩
        · intro h
          refine ⟨?_, by omega, h.2.2⟩
          by_contra hlt
          have : c - o = k0 := by omega
          rw [this] at h
          exact hA h.2.2
      simp only [h1]

/-- A commit writes only into empty cells, so occupied cells keep their
value. -/
theorem commit_keeps (t : Int) (g : Globals) (row o c : Int)
    (hnc : ¬ collides t g row o) (hocc : g.C c ≠ InvalidKey) :
    (commit t g row o).C c = g.C c := by
  simp only [commit]
  rw [if_neg]
  rintro ⟨c1, c2, c3⟩
  apply hnc
  refine ⟨c - o, c1, c2, ?_, c3⟩
  have : o + (c - o) = c := by omega
  rw [this]
  exact hocc

/-- Whatever way the row loop ends, a cell that was occupied when it started
still holds the same value. -/
theorem packRows_grows (t : Int) (ht1 : 1 ≤ t) (ht : t ≤ t_Max) :
    ∀ (n : Nat) (ndx : Int) (off : Option Int) (g : Globals),
      (∀ p, inBounds p t_Max → inBounds (g.Row p).RowNumber t_Max) →
      ∀ c, g.C c ≠ InvalidKey → (packRows t n ndx off g).globals.C c = g.C c := by
  intro n
  induction n with
  | zero =>
    intro ndx off g _ c _
    simp [packRows, PackResult.globals]
  | succ n ih =>
    intro ndx off g hrows c hocc
    rw [packRows]
    by_cases hb : inBounds ndx t_Max
    · simp only [hb, if_true]
      by_cases hcnt : (g.Row ndx).RowItemCnt > 0
      · simp only [hcnt, if_true]
        obtain ⟨o, o1, o2, o3, o4⟩ :=
          placeRow_spec t (g.Row ndx).RowNumber g ht1 ht (hrows ndx hb)
        rcases o4 with ⟨o5, o6⟩ | ⟨o5, o6, o7⟩
        · simp only [o6, o5, if_true, PackResult.globals]
        · have hne : ¬ o = HashTable_Max - t - 1 := by omega
          simp only [o7, hne, if_false]
          have hk := commit_keeps t g (g.Row ndx).RowNumber o c o6 hocc
          rw [ih (ndx + 1) (some o) (commit t g (g.Row ndx).RowNumber o) hrows c
            (by rw [hk]; exact hocc), hk]
      · simp only [hcnt, if_false, PackResult.globals]
    · simp only [hb, if_false, PackResult.globals]

/-- C19 (committing a row never overwrites a placed key).  For `1 ≤ t ≤ 100`
and any state `g` of the globals whose descriptors name rows inside `A`:
the pass of the packer over a row returns an offset `o`; when `o` is the loop
bound nothing was committed and the globals are unchanged; otherwise, for
every occupied column `k` of the row, the cell `C[o+k]` was empty before the
commit, is still empty in the state of the insertion loop after its first `k`
passes (immediately before the write), and holds `A[row][k]` afterwards; every
cell that was occupied before keeps its value; and only such cells `C[o+k]`
change.  So through all passes of the row loop, however it ends, every cell
that was occupied stays occupied with the same value. -/
theorem C19_commit_no_overwrite (t : Int) (g : Globals) (ht1 : 1 ≤ t) (ht : t ≤ 100)
    (hrows : ∀ p, 0 ≤ p → p < 100 →
      0 ≤ (g.Row p).RowNumber ∧ (g.Row p).RowNumber < 100) :
    (∀ row, inBounds row t_Max →
      ∃ o g1, placeRow t row g = some (o, g1) ∧
        (o = HashTable_Max - t - 1 → g1 = g) ∧
        (o ≠ HashTable_Max - t - 1 →
          (∀ k, 0 ≤ k → k < t → g.A row k ≠ InvalidKey →
            g.C (o + k) = InvalidKey ∧
            (∃ gk, insertRow t row o k.toNat 0 { g with r := store g.r row o } = some gk ∧
              gk.C (o + k) = InvalidKey) ∧
            g1.C (o + k) = g.A row k) ∧
          (∀ c, g.C c ≠ InvalidKey → g1.C c = g.C c) ∧
          (∀ c, g1.C c ≠ g.C c →
            ∃ k, 0 ≤ k ∧ k < t ∧ g.A row k ≠ InvalidKey ∧ c = o + k))) ∧
    (∀ (n : Nat) (ndx : Int) (off : Option Int) (c : Int), g.C c ≠ InvalidKey →
      (packRows t n ndx off g).globals.C c = g.C c) := by
  refine ⟨?_, fun n ndx off c hocc =>
    packRows_grows t ht1 ht n ndx off g (fun p hp => hrows p hp.1 hp.2) c hocc⟩
  intro row hrow
  obtain ⟨o, o1, o2, o3, o4⟩ := placeRow_spec t row g ht1 ht hrow
  rcases o4 with ⟨o5, o6⟩ | ⟨o5, o6, o7⟩
  · exact ⟨o, g, o6, fun _ => rfl, fun h => absurd o5 h⟩
  · refine ⟨o, commit t g row o, o7, fun h => by omega, fun _ => ⟨?_, ?_, ?_⟩⟩
    · intro k k0 k1 kA
      have hempty : g.C (o + k) = InvalidKey := by
        by_contra hocc
        exact o6 ⟨k, k0, k1, hocc, kA⟩
      refine ⟨hempty, ?_, ?_⟩
      · refine ⟨_, insertRow_prefix t row o ht hrow o1 (by omega) k.toNat 0 _ (le_refl _)
          (by omega), ?_⟩
        simp only
        rw [if_neg]
        · exact hempty
        · intro h
          have := h.2.1
          omega
      · have : o + k - o = k := by omega
        simp only [commit, this]
        rw [if_pos ⟨k0, k1, kA⟩]
    · intro c hocc
      exact commit_keeps t g row o c o6 hocc
    · intro c hc
      by_cases hw : 0 ≤ c - o ∧ c - o < t ∧ g.A row (c - o) ≠ InvalidKey
      · exact ⟨c - o, hw.1, hw.2.1, hw.2.2, by omega⟩
      · exfalso
        apply hc
        simp only [commit]
        rw [if_neg hw]

/-- Witness for C19: keys 5, 1, 7, 8, 2, 0 with `t = 3` are ingested and row 0
(keys 0, 1, 2) is placed into the empty table. -/
theorem C19_commit_no_overwrite_witness :
    ∃ o g1, placeRow 3 0 (ReadKeyData (some [5, 1, 7, 8, 2, 0]) 3 (InitArrays zeroGlobals)).g
        = some (o, g1) ∧
      (o ≠ HashTable_Max - 3 - 1 →
        (ReadKeyData (some [5, 1, 7, 8, 2, 0]) 3 (InitArrays zeroGlobals)).g.C (o + 1)
          = InvalidKey ∧ g1.C (o + 1) = 1) := by
  obtain ⟨o, g1, h1, -, h3⟩ :=
    (C19_commit_no_overwrite 3 (ReadKeyData (some [5, 1, 7, 8, 2, 0]) 3
      (InitArrays zeroGlobals)).g (by decide) (by decide) (by decide)).1 0 (by decide)
  refine ⟨o, g1, h1, fun hne => ?_⟩
  obtain ⟨a, -, b⟩ := (h3 hne).1 1 (by decide) (by decide) (by decide)
  exact ⟨a, b⟩

/-! ## Bounds of the accesses -/

/-- The table accesses of the packer stay inside `C`: every index `o + k` the
loops can form is in bounds, the pass over a row never runs into an
out-of-bounds access, and an offset it records lies in `[0, HashTable_Max-t-1)`. -/
theorem packer_in_bounds (t : Int) (ht1 : 1 ≤ t) (ht : t ≤ t_Max) :
    (∀ o k, 0 ≤ o → o < HashTable_Max - t - 1 → 0 ≤ k → k < t →
      inBounds (o + k) HashTable_Max) ∧
    (∀ (g : Globals) (row : Int), inBounds row t_Max →
      ∃ o g1, placeRow t row g = some (o, g1) ∧ 0 ≤ o ∧ o ≤ HashTable_Max - t - 1 ∧
        (o ≠ HashTable_Max - t - 1 → g1.r row = o ∧ o < HashTable_Max - t - 1)) := by
  refine ⟨fun o k o0 o1 k0 k1 => ⟨by omega, by omega⟩, ?_⟩
  intro g row hrow
  obtain ⟨o, o1, o2, o3, o4⟩ := placeRow_spec t row g ht1 ht hrow
  rcases o4 with ⟨o5, o6⟩ | ⟨o5, o6, o7⟩
  · exact ⟨o, g, o6, o1, o2, fun h => absurd o5 h⟩
  · exact ⟨o, _, o7, o1, o2, fun _ => ⟨by simp [commit, store], o5⟩⟩

/-- In a finished run every entry of `r` is either the `-1` of `InitArrays` or
a displacement in `[0, HashTable_Max-t-1)`, and on a non-empty key file the
reported size is at most `HashTable_Max - 2`. -/
theorem main_in_bounds (t : Int) (keys : List Int) (ht1 : 1 ≤ t) (ht : t ≤ t_Max)
    (hk : ∀ k ∈ keys, 0 ≤ k ∧ k / t < t)
    (hfin : (main t (some keys)).status = Status.finished) :
    (∀ i, inBounds i t_Max → (main t (some keys)).g.r i = -1 ∨
      (0 ≤ (main t (some keys)).g.r i ∧
        (main t (some keys)).g.r i < HashTable_Max - t - 1)) ∧
    (keys ≠ [] → ∃ e, (main t (some keys)).offset = some e ∧ e ≤ HashTable_Max - 2) := by
  obtain ⟨f1, f2, f3⟩ := main_facts t keys ht1 ht hk hfin
  refine ⟨?_, ?_⟩
  · intro i hi
    by_cases hex : ∃ k ∈ keys, k / t = i
    · obtain ⟨k, hkm, rfl⟩ := hex
      exact Or.inr ⟨(f1 k hkm).1, (f1 k hkm).2.1⟩
    · exact Or.inl (f2 i hi hex)
  · intro hne
    obtain ⟨e, e1, e2, e3, e4, -⟩ := main_extent t keys ht1 ht hk hne hfin
    obtain ⟨k, hkm, hc⟩ := f3 (e - 1) ⟨by omega, by omega⟩ e4
    have h2 : k % t < t := Int.emod_lt_of_pos k (by omega)
    have := (f1 k hkm).2.1
    exact ⟨e, e1, by omega⟩

/-- C15, the run on an empty key file with `t = 100`: the run finishes and the
local `offset`, printed as the hash table size, was never assigned. -/
theorem C15_empty_file_extent_unassigned :
    (main 100 (some [])).status = Status.finished ∧
    (main 100 (some [])).offset = none := by
  decide!

/-! ## The read of `Row[ndx]` -/

theorem packStart_cnt_pos (t : Int) (keys : List Int) (σ : Equiv.Perm Int) (p : Int)
    (hp : inBounds (σ p) t_Max) :
    ((packStart t keys σ).Row p).RowItemCnt > 0 ↔ ∃ k ∈ keys, k / t = σ p := by
  rw [packStart_Row t keys σ p hp]
  simp only [gt_iff_lt, Nat.cast_pos, List.countP_pos_iff, decide_eq_true_eq]

/-- The row loop reads `Row[t_Max]` only when all `t_Max` rows of `A` hold a
key, and in that case the run cannot finish. -/
theorem row_read_out_of_bounds (t : Int) (keys : List Int) (ht1 : 1 ≤ t) (ht : t ≤ t_Max)
    (hk : ∀ k ∈ keys, 0 ≤ k ∧ k / t < t) :
    ((main t (some keys)).status = Status.undefined →
      ∀ i, inBounds i t_Max → ∃ k ∈ keys, k / t = i) ∧
    ((∀ i, inBounds i t_Max → ∃ k ∈ keys, k / t = i) →
      (main t (some keys)).status ≠ Status.finished) := by
  obtain ⟨σ, s1, s2, -, hcase⟩ := main_cases t keys ht1 ht hk
  have hσ := perm_inBounds t ht σ s1
  have hσs := perm_inBounds t ht σ.symm (perm_symm_fix t σ s1)
  refine ⟨?_, ?_⟩
  · intro hs i hi
    rcases hcase with ⟨h, -⟩ | ⟨m, h, -⟩ | ⟨-, -, mpos⟩
    · rw [h] at hs; simp at hs
    · rw [h] at hs; simp at hs
    · have hp := hσs i hi
      have := mpos (σ.symm i) hp.1 hp.2
      rw [packStart_cnt_pos t keys σ _ (hσ _ hp), Equiv.apply_symm_apply] at this
      exact this
  · intro hall hs
    rcases hcase with ⟨-, m, off, m0, m1, -, -, m4, -⟩ | ⟨m, h, -⟩ | ⟨h, -⟩
    · have hb : inBounds m t_Max := ⟨m0, m1⟩
      have := (packStart_cnt_pos t keys σ m (hσ m hb)).mpr (hall _ (hσ m hb))
      omega
    · rw [h] at hs; simp at hs
    · rw [h] at hs; simp at hs

/-- When every key sits in column 0 the packer cannot fail: a candidate offset
collides only if it is the displacement of a row placed before, and there are
more candidate offsets than rows.  So if moreover all `t_Max` rows hold a key,
the row loop goes past the end of `Row`. -/
theorem all_rows_column_zero (t : Int) (keys : List Int) (ht1 : 1 ≤ t) (ht : t ≤ t_Max)
    (hk : ∀ k ∈ keys, 0 ≤ k ∧ k / t < t) (hcol : ∀ k ∈ keys, k % t = 0)
    (hall : ∀ i, inBounds i t_Max → ∃ k ∈ keys, k / t = i) :
    (main t (some keys)).status = Status.undefined := by
  have hnf := (row_read_out_of_bounds t keys ht1 ht hk).2 hall
  obtain ⟨σ, s1, s2, -, hcase⟩ := main_cases t keys ht1 ht hk
  have hσ := perm_inBounds t ht σ s1
  rcases hcase with ⟨h, -⟩ | ⟨m, -, m0, m1, inv, -, mcol⟩ | ⟨h, -⟩
  · exact absurd h hnf
  · exfalso
    have h100 : t_Max = 100 := rfl
    have h1000 : HashTable_Max = 1000 := rfl
    -- only column 0 of a row is occupied
    have hA0 : ∀ p kk, inBounds p t_Max → 0 ≤ kk → kk < t →
        (packStart t keys σ).A ((packStart t keys σ).Row p).RowNumber kk ≠ InvalidKey →
        kk = 0 := by
      intro p kk hp kk0 kk1 hocc
      rw [packStart_Row _ _ σ p (hσ p hp)] at hocc
      obtain ⟨key, e1, -, e3⟩ := (packStart_A t keys σ (σ p) kk (fun x h => (hk x h).1)
        (hσ p hp) ⟨kk0, by omega⟩).mp hocc
      rw [← e3]
      exact hcol key e1
    -- every candidate offset is the displacement of a row placed before
    have hsub : Finset.Ico (0 : Int) (HashTable_Max - t - 1) ⊆ (Finset.Ico 0 m).image
        (fun p => (main t (some keys)).g.r ((packStart t keys σ).Row p).RowNumber) := by
      intro o ho
      rw [Finset.mem_Ico] at ho
      obtain ⟨kk, kk0, kk1, kC, kA⟩ := mcol o ho.1 ho.2
      rw [inv.sameA] at kA
      have hkk := hA0 m kk ⟨m0, m1⟩ kk0 kk1 kA
      subst hkk
      rw [add_zero] at kC
      have hw : (main t (some keys)).g.C o ≠ (packStart t keys σ).C o := by
        rw [packStart_C _ _ σ o ⟨ho.1, by omega⟩]
        exact kC
      obtain ⟨p, p0, p1, k2, k20, k21, k2A, k2e⟩ := inv.written o hw
      have hk2 := hA0 p k2 ⟨p0, by omega⟩ k20 k21 k2A
      subst hk2
      rw [Finset.mem_image]
      exact ⟨p, Finset.mem_Ico.mpr ⟨p0, p1⟩, by rw [k2e, add_zero]⟩
    have hc1 := Finset.card_le_card hsub
    have hc2 := Finset.card_image_le (s := Finset.Ico (0 : Int) m)
      (f := fun p => (main t (some keys)).g.r ((packStart t keys σ).Row p).RowNumber)
    rw [Int.card_Ico] at hc1 hc2
    omega
  · exact h

/-- C20, the run with `t = 100` on the hundred keys 0, 100, 200, .., 9900, one
in column 0 of every row: the packer places all hundred rows and then
evaluates `Row[100].RowItemCnt`, outside the hundred entries of `Row`. -/
theorem C20_row_read_past_end :
    (main 100 (some ((upTo 100).map (fun i => i * 100)))).status = Status.undefined := by
  have hmem : ∀ k, k ∈ (upTo 100).map (fun i => i * 100) ↔
      ∃ i, (0 ≤ i ∧ i < 100) ∧ i * 100 = k := by
    intro k
    simp only [List.mem_map, mem_upTo]
  apply all_rows_column_zero 100 _ (by decide) (le_refl _)
  · intro k hkm
    obtain ⟨i, ⟨i0, i1⟩, rfl⟩ := (hmem k).mp hkm
    omega
  · intro k hkm
    obtain ⟨i, -, rfl⟩ := (hmem k).mp hkm
    omega
  · intro i hi
    have h100 : t_Max = 100 := rfl
    have := hi.1
    have := hi.2
    exact ⟨i * 100, (hmem _).mpr ⟨i, ⟨by omega, by omega⟩, rfl⟩, by omega⟩

end Hfg
